import Mathlib

/-!
Verification of the RootSense header aggregator.

This file gives a shallow embedding of the core of the repository:

* `rootsense_utils.py` — the `_RSItem` / `RSNode` name-keyed registry
  (an unbalanced binary search tree keyed by file name), its `insert`,
  `__contains__`, `__getitem__`, `__or__`, `merge`, `insert_dir`,
  `mark_as_seen` machinery;
* `rootsense-gen.py` — `get_includes` (include extraction),
  `dependency_ok` (the recursive, memoizing resolvability check) and
  `generate_rootsense` (the top-level driver).

Python strings are Lean `String`s; Python string primitives (`strip`,
`split`, `startswith`, `in`, `<`) are re-implemented over the character
list so that every definition evaluates inside the kernel.  Filesystem
paths (`pathlib.Path` values) are represented as their component lists
(`List String`); joining a relative include text onto a directory appends
the slash-separated components, and `.parent` drops the last component.
The filesystem itself is a parameter `fs : List String → List String`
mapping a file path to the list of its text lines, and the external
MIME/text sniff (`is_ascii`, a shell call in the source) is likewise a
boolean oracle parameter.

The registry methods `is_ok_to_include`, `set_ok_to_include` and
`get_item_path`, the `ok_to_include` item attribute, and the `andl`
helper are called by `rootsense-gen.py` but are defined nowhere in the
repository; they are modelled from the specification's FileRegistry
contract (`setResolvable` / `getResolvable` with an absent/present
`resolvable` verdict, `get` returning the registered path, and the
verdict being the logical AND over child verdicts).  Each such
definition is marked `Modelled from the spec:` in its doc comment.
-/

/-- Python `c1 < c2` on single characters: comparison of code points.
`Char.lt` in Lean is exactly code-point comparison. -/
def charLt (c d : Char) : Bool := decide (c < d)

/-- Python `<` on strings, on the underlying character lists:
lexicographic comparison by code points, a strict prefix being smaller. -/
def listLtB : List Char → List Char → Bool
  | [], [] => false
  | [], _ :: _ => true
  | _ :: _, [] => false
  | c :: cs, d :: ds => if charLt c d then true else if charLt d c then false else listLtB cs ds

/-- Python `s1 < s2` on strings (used by `_RSItem.__lt__`, which compares
by `file_name`). -/
def strLtB (a b : String) : Bool := listLtB a.data b.data

/-- Python `str.strip()`: drop leading and trailing whitespace. -/
def pyStrip (s : String) : String :=
  String.mk (((s.data.dropWhile Char.isWhitespace).reverse.dropWhile Char.isWhitespace).reverse)

/-- Helper for `pySplit`: splits the remaining characters at every
occurrence of the separator, `acc` holding the current chunk reversed. -/
def splitOnCharAux (c : Char) : List Char → List Char → List String
  | [], acc => [String.mk acc.reverse]
  | d :: ds, acc =>
    if d = c then String.mk acc.reverse :: splitOnCharAux c ds []
    else splitOnCharAux c ds (d :: acc)

/-- Python `s.split(c)` for a single-character separator: always returns a
non-empty list; adjacent separators yield empty chunks. -/
def pySplit (s : String) (c : Char) : List String := splitOnCharAux c s.data []

/-- Python `s.startswith(p)`. -/
def pyStartsWith (s p : String) : Bool := p.data.isPrefixOf s.data

/-- Python `c in s` for a single character `c`. -/
def pyContainsChar (s : String) (c : Char) : Bool := s.data.contains c

/-- Python `inc_file.split(sep='/')[-1]`: the base name of an include
target text. -/
def lastComp (s : String) : String := (pySplit s '/').getLastD s

/-- Python `Path(dir) / s` for a relative slash-separated `s`: append the
components of `s`. -/
def joinPath (dir : List String) (s : String) : List String := dir ++ pySplit s '/'

/-- One registry entry: `_RSItem` of `rootsense_utils.py` (fields
`file_name`, `file_path`, `seen`), extended with the optional resolvable
verdict.  The `ok` field is `Modelled from the spec:` the source stores
the verdict as a dynamically added `ok_to_include` attribute (absent
until set); the spec describes it as the optional `resolvable` boolean,
absent while processing is in progress. -/
structure RSItem where
  file_name : String
  file_path : List String
  seen : Bool := false
  ok : Option Bool := none
deriving DecidableEq, Repr

/-- The registry: `RSNode` of `rootsense_utils.py`, an unbalanced binary
search tree ordered by `file_name`.  A fresh `RSNode()` (whose `node`
field is still `None`) and an absent child are both `nil`. -/
inductive RSNode where
  | nil : RSNode
  | node (item : RSItem) (left right : RSNode) : RSNode
deriving DecidableEq, Repr

namespace RSNode

/-- `RSNode.insert` (`rootsense_utils.py` lines 152-185): walk by name
order; an equal name overwrites the stored item. -/
def insert : RSNode → RSItem → RSNode
  | .nil, x => .node x .nil .nil
  | .node it l r, x =>
    if x.file_name = it.file_name then .node x l r
    else if strLtB x.file_name it.file_name then .node it (insert l x) r
    else .node it l (insert r x)

/-- `RSNode.__contains__` (`rootsense_utils.py` lines 272-297): the
membership test, by name. -/
def contains : RSNode → String → Bool
  | .nil, _ => false
  | .node it l r, k =>
    if k = it.file_name then true
    else if strLtB k it.file_name then contains l k
    else if strLtB it.file_name k then contains r k
    else false

/-- `RSNode.__getitem__` (`rootsense_utils.py` lines 299-322) as a total
function: the raised `KeyError` on an absent key becomes `none`.  The
navigation (equal, smaller-goes-left, otherwise right) is the source's. -/
def getItem : RSNode → String → Option RSItem
  | .nil, _ => none
  | .node it l r, k =>
    if k = it.file_name then some it
    else if strLtB k it.file_name then getItem l k
    else getItem r k

/-- In-order list of stored items (the order `printout` would emit). -/
def itemsList : RSNode → List RSItem
  | .nil => []
  | .node it l r => itemsList l ++ it :: itemsList r

/-- In-order list of stored names. -/
def keys : RSNode → List String
  | .nil => []
  | .node it l r => keys l ++ it.file_name :: keys r

/-- `RSNode.size` (`rootsense_utils.py` lines 373-382). -/
def size : RSNode → Nat
  | .nil => 0
  | .node _ l r => 1 + size l + size r

/-- The effect of `self[item].attr = value`: navigate exactly as
`__getitem__` does and rewrite the stored item in place; an absent key
(which would raise in the source, and is never reached by guarded
callers) leaves the tree unchanged. -/
def updateItem (f : RSItem → RSItem) : RSNode → String → RSNode
  | .nil, _ => .nil
  | .node it l r, k =>
    if k = it.file_name then .node (f it) l r
    else if strLtB k it.file_name then .node it (updateItem f l k) r
    else .node it l (updateItem f r k)

/-- `RSNode.mark_as_seen` (`rootsense_utils.py` lines 401-402):
`self[item].seen = True`. -/
def mark_as_seen (t : RSNode) (k : String) : RSNode :=
  updateItem (fun it => { it with seen := true }) t k

/-- Modelled from the spec: `setResolvable(name, bool)` — missing from
`rootsense_utils.py` though called by `dependency_ok`; records the
verdict on the entry. -/
def set_ok_to_include (t : RSNode) (k : String) (status : Bool) : RSNode :=
  updateItem (fun it => { it with ok := some status }) t k

/-- Modelled from the spec: `getResolvable(name) -> bool | absent` —
missing from `rootsense_utils.py` though called by `dependency_ok`; the
`AttributeError` raised when the verdict was never recorded becomes
`none`. -/
def is_ok_to_include (t : RSNode) (k : String) : Option Bool :=
  (getItem t k).bind (fun it => it.ok)

/-- Modelled from the spec: the registered path of an entry — missing
from `rootsense_utils.py` though called by `dependency_ok`
(`Path(self[item].file_path)` per the RegistryEntry `path` field). -/
def get_item_path (t : RSNode) (k : String) : Option (List String) :=
  (getItem t k).map (fun it => it.file_path)

/-- `RSTree.has_been_seen` (`src/Brazil/rootsense_classes.py` lines
304-305, the only definition of this method in the repository):
`item in self and self[item].seen`. -/
def has_been_seen (t : RSNode) (k : String) : Bool :=
  contains t k && ((getItem t k).map (fun it => it.seen)).getD false

/-- The binary-search-tree invariant, which every registry built by
`insert` satisfies: all names in the left subtree are smaller, all names
in the right subtree larger. -/
def isBST : RSNode → Bool
  | .nil => true
  | .node it l r =>
    (keys l).all (fun k => strLtB k it.file_name) &&
    (keys r).all (fun k => strLtB it.file_name k) && isBST l && isBST r

/-- `RSNode.__or__` (`rootsense_utils.py` lines 324-345), as the value
computed for the left operand: insert the right operand's root item,
then fold in its left and then its right subtree (an empty right operand
returns the left operand unchanged). -/
def orOp : RSNode → RSNode → RSNode
  | t, .nil => t
  | t, .node it l r => orOp (orOp (t.insert it) l) r

/-- `RSNode.merge` (`rootsense_utils.py` lines 347-358): start from a
fresh empty registry and fold `|=` over the arguments. -/
def merge (ts : List RSNode) : RSNode := ts.foldl orOp .nil

end RSNode

/-- `get_includes` (`rootsense-gen.py` lines 8-32), on the list of lines
of the file: keep, per line, the text between the first two double
quotes of stripped `#include` lines that contain a quote or an angle
bracket, skipping it when it contains internal whitespace; angle-bracket
includes are never extracted. -/
def get_includes : List String → List String
  | [] => []
  | line :: rest =>
    let l := pyStrip line
    if pyStartsWith l "#include" && (pyContainsChar l '<' || pyContainsChar l '"') then
      if pyContainsChar l '"' then
        let included_file := pyStrip ((pySplit l '"').getD 1 "")
        if pyContainsChar included_file ' ' then get_includes rest
        else included_file :: get_includes rest
      else get_includes rest
    else get_includes rest

/-- `get_includes` with the one partial operation made explicit: the
`line.split('\x22', 2)[1]` indexing, which would raise `IndexError` were
the quote-guard not there, is an `Except` error case. -/
def get_includesE : List String → Except String (List String)
  | [] => .ok []
  | line :: rest =>
    let l := pyStrip line
    if pyStartsWith l "#include" && (pyContainsChar l '<' || pyContainsChar l '"') then
      if pyContainsChar l '"' then
        match (pySplit l '"').get? 1 with
        | none => .error "IndexError"
        | some raw =>
          let included_file := pyStrip raw
          if pyContainsChar included_file ' ' then get_includesE rest
          else (get_includesE rest).map (fun is => included_file :: is)
      else get_includesE rest
    else get_includesE rest

/-- The extraction contract as the specification words it, per line: a
line is an include directive when, after stripping surrounding
whitespace, it starts with the include-directive token and contains a
quote or an angle bracket; only a double-quoted target is extracted (the
text between the first two quotes), and a target with internal
whitespace is a parse artifact and is discarded. -/
def includeTargetOfLine (line : String) : Option String :=
  let l := pyStrip line
  if pyStartsWith l "#include" && (pyContainsChar l '<' || pyContainsChar l '"') then
    if pyContainsChar l '"' then
      let target := pyStrip ((pySplit l '"').getD 1 "")
      if pyContainsChar target ' ' then none else some target
    else none
  else none

/-- Modelled from the spec: `andl` is imported from `rootsense_utils` by
`rootsense-gen.py` but defined nowhere in the repository; "the file's
verdict is the logical AND over all child verdicts (vacuously true if it
has no includes)". -/
def andl (bs : List Bool) : Bool := bs.all (fun b => b)

/-- The set of include-search directories (`VS_includes` and the local
`include_parent_directories` are Python sets of `Path`s). -/
abbrev DirSet := Finset (List String)

/-- The filesystem: maps a file path to the list of its text lines. -/
abbrev FS := List String → List String

/-- Result of one `dependency_ok` call: the verdict, the registry after
the call, the caller-supplied directory accumulator after the call, and
the number of `get_includes` invocations the call performed (the call
counter the spec proposes for the idempotence test). -/
structure DepRes where
  ok : Bool
  tree : RSNode
  dirs : DirSet
  calls : Nat
deriving DecidableEq

/-- Result of the child-list traversal in `dependency_ok` line 137. -/
structure GoRes where
  oks : List Bool
  tree : RSNode
  dirs : DirSet
  calls : Nat
deriving DecidableEq

/-- The list comprehension of `rootsense-gen.py` line 137: call `dep`
(one `dependency_ok` recursion) on each included name in order,
threading the registry and the local directory set through, collecting
the verdicts. -/
def depGo (dep : String → RSNode → DirSet → DepRes) :
    List String → RSNode → DirSet → GoRes
  | [], t, dirs => ⟨[], t, dirs, 0⟩
  | n :: ns, t, dirs =>
    let r := dep n t dirs
    let g := depGo dep ns r.tree r.dirs
    ⟨r.ok :: g.oks, g.tree, g.dirs, r.calls + g.calls⟩

/-- The loop of `rootsense-gen.py` lines 127-135: for each include text
and its base name, skip targets absent from the registry; when the
parent directory joined with the raw include text is not the registered
path of the target, add the parent directory of the registered path. -/
def localDirsOf (t1 : RSNode) (file_parent_directory : List String)
    (included_files included_files_names : List String) : DirSet :=
  (included_files.zip included_files_names).foldl (fun s p =>
    if RSNode.contains t1 p.2 = false then s
    else
      match RSNode.get_item_path t1 p.2 with
      | none => s
      | some q => if joinPath file_parent_directory p.1 ≠ q then insert q.dropLast s else s) ∅

/-- Lines 117-144 of `rootsense-gen.py` (the branch for a file that is
present and not yet seen, entered after `mark_as_seen`): extract the
includes of the file at its registered path, compute the local directory
set, recurse on the children's base names, record the AND verdict, and
merge the local directories into the caller's accumulator only when the
verdict is positive. -/
def depFreshBody (fs : FS) (dep : String → RSNode → DirSet → DepRes) (name : String)
    (t1 : RSNode) (acc : DirSet) (file_path : List String) : DepRes :=
  let file_parent_directory := file_path.dropLast
  let included_files := get_includes (fs file_path)
  let included_files_names := included_files.map lastComp
  let include_parent_directories :=
    localDirsOf t1 file_parent_directory included_files included_files_names
  let g := depGo dep included_files_names t1 include_parent_directories
  let ok_to_include := andl g.oks
  ⟨ok_to_include, RSNode.set_ok_to_include g.tree name ok_to_include,
    if ok_to_include then acc ∪ g.dirs else acc, g.calls + 1⟩

/-- `dependency_ok` (`rootsense-gen.py` lines 99-144) with a structural
fuel parameter (the Python recursion terminates because every recursive
step marks a previously unseen file; the wrapper `dependency_ok` below
supplies fuel that always suffices).  Branches in source order: absent
file (line 101), already seen with a recorded verdict (memo, lines
105-109), already seen with no verdict (circular include, lines
111-112), otherwise the fresh-file body after `mark_as_seen` (line 115;
the unreachable `none` path branch corresponds to the `KeyError` the
membership guard rules out). -/
def depOkF (fs : FS) : Nat → String → RSNode → DirSet → DepRes
  | 0, _, t, acc => ⟨false, t, acc, 0⟩
  | fuel + 1, name, t, acc =>
    if RSNode.contains t name = false then ⟨false, t, acc, 0⟩
    else if RSNode.has_been_seen t name then
      match RSNode.is_ok_to_include t name with
      | some b => ⟨b, t, acc, 0⟩
      | none => ⟨true, t, acc, 0⟩
    else
      let t1 := RSNode.mark_as_seen t name
      match RSNode.get_item_path t1 name with
      | none => ⟨false, t1, acc, 0⟩
      | some fp => depFreshBody fs (depOkF fs fuel) name t1 acc fp

/-- `dependency_ok`: the fueled recursion at fuel `size + 1`, which is
enough because every level of recursion first marks an unseen registry
entry as seen. -/
def dependency_ok (fs : FS) (name : String) (t : RSNode) (acc : DirSet) : DepRes :=
  depOkF fs (t.size + 1) name t acc

/-- `generate_rootsense` (`rootsense-gen.py` lines 67-97): merge the
registries, then walk the header files discovered under the include root
(in discovery order), skipping any file already seen, and append to the
output every file whose `dependency_ok` verdict is true, threading the
`VS_includes` accumulator through the calls.  Returns the output list
and the directory set. -/
def generate_rootsense (fs : FS) (include_files : List (List String)) (trees : List RSNode) :
    List (List String) × DirSet :=
  let global_tree := RSNode.merge trees
  let r := include_files.foldl (fun st file =>
    if RSNode.has_been_seen st.2.2 (file.getLastD "") then st
    else
      let d := dependency_ok fs (file.getLastD "") st.2.2 st.2.1
      (if d.ok then st.1 ++ [file] else st.1, d.dirs, d.tree))
    (([] : List (List String)), (∅ : DirSet), global_tree)
  (r.1, r.2.1)

/-- The spec's registry invariant, decidably: an entry carrying a
resolvable verdict is marked seen ("`resolvable` is only ever set after
`visited`"). -/
def OkSeenB (t : RSNode) : Bool :=
  (RSNode.itemsList t).all (fun it => !it.ok.isSome || it.seen)

/-- Two-argument `orElse` on options, for stating lookup composition. -/
def optOr {α} : Option α → Option α → Option α
  | some a, _ => some a
  | none, b => b

/-- How one registry entry may evolve across a resolver call: it keeps
its name and path, and the `seen` mark is never cleared; an absent entry
stays absent. -/
def EntryRel : Option RSItem → Option RSItem → Prop
  | none, none => True
  | some it1, some it2 =>
    it2.file_name = it1.file_name ∧ it2.file_path = it1.file_path ∧
      (it1.seen = true → it2.seen = true)
  | _, _ => False

/-- The include names extracted for a fresh file at path `fp`. -/
def freshNames (fs : FS) (fp : List String) : List String :=
  (get_includes (fs fp)).map lastComp

/-- The local directory set computed for a fresh file at path `fp`. -/
def freshDirs (fs : FS) (t1 : RSNode) (fp : List String) : DirSet :=
  localDirsOf t1 fp.dropLast (get_includes (fs fp)) (freshNames fs fp)

/-- The child traversal performed for a fresh file at path `fp`. -/
def freshGo (fs : FS) (dep : String → RSNode → DirSet → DepRes)
    (t1 : RSNode) (fp : List String) : GoRes :=
  depGo dep (freshNames fs fp) t1 (freshDirs fs t1 fp)

/-- The registry invariant the spec states for the resolver: an entry
whose resolvable verdict is recorded has been visited. -/
def OkSeenP (t : RSNode) : Prop :=
  ∀ k it, RSNode.getItem t k = some it → it.ok.isSome = true → it.seen = true

/-- Registry-granularity heap: for the in-place-mutation claim about
`__or__`, registry objects live in a store addressed by `Nat` references,
each cell holding the current contents of one registry object. -/
abbrev Heap := List RSNode

/-- Dereference: an out-of-range reference reads as an empty registry. -/
def heapGet (h : Heap) (i : Nat) : RSNode := h.getD i RSNode.nil

/-- In-place mutation of the object at reference `i`. -/
def heapSet (h : Heap) (i : Nat) (t : RSNode) : Heap := h.set i t

/-- The mutations `RSNode.__or__` performs on `self` (`rootsense_utils.py`
lines 324-345), against the store: `result = self` aliases `self`, so
`result.insert(other.node)` mutates the cell of `self`, and the recursive
`result |= other._left` / `result |= other._right` continue mutating the
same cell while only reading the right operand. -/
def orStepH : Heap → Nat → RSNode → Heap
  | h, _, .nil => h
  | h, i, .node it l r =>
    orStepH (orStepH (heapSet h i ((heapGet h i).insert it)) i l) i r

/-- `t | u` on the store: mutate the cell of the left operand and return
the reference to the left operand (`return result` where `result = self`). -/
def orH (h : Heap) (self other : Nat) : Heap × Nat :=
  (orStepH h self (heapGet h other), self)

/-- `RSNode.merge` on the store: `new_tree = cls()` allocates a fresh
empty registry (a new cell at the end of the store), then `new_tree |=
other` folds the arguments into it, returning the fresh reference. -/
def mergeH (h : Heap) (others : List Nat) : Heap × Nat :=
  others.foldl (fun st j => orH st.1 st.2 j) (h ++ [RSNode.nil], h.length)

/-- One file found by the directory scan (`dir.rglob` then `is_file`),
with its `pathlib` suffix. -/
structure ScanFile where
  path : List String
  suffix : String
deriving DecidableEq, Repr

/-- The per-file filtering policy of `RSNode.insert_dir`
(`rootsense_utils.py` lines 220-228): a file passes when the wildcard is
in `ext` or its suffix is, except that an extensionless file under
`ascii_only` must additionally pass the plain-text sniff (`is_ascii`, an
external shell call modelled by the oracle `asciiOf`). -/
def shouldInsert (ext : List String) (ascii_only : Bool) (asciiOf : List String → Bool)
    (f : ScanFile) : Bool :=
  if ext.contains "*" || ext.contains f.suffix then
    if f.suffix = "" && ascii_only && !(asciiOf f.path) then false else true
  else false

/-- `RSNode.insert_dir` (`rootsense_utils.py` lines 187-234) on the list
of files the recursive scan discovered: insert, in scan order, every
file passing the filter; the inserted item is `_RSItem.from_path` (name
is the last path component; fresh flags). -/
def insert_dir (t : RSNode) (files : List ScanFile) (ext : List String) (ascii_only : Bool)
    (asciiOf : List String → Bool) : RSNode :=
  files.foldl (fun tt f =>
    if shouldInsert ext ascii_only asciiOf f then
      tt.insert ⟨f.path.getLastD "", f.path, false, none⟩
    else tt) t

/-- The next include target along a dependency chain: the following
chain member, or the missing file at the end. -/
def nextTarget (m : String) : List String → String
  | [] => m
  | n2 :: _ => n2

/-- A linear dependency chain in registry `t` ending at the missing file
`m`: every listed file is present and unseen and its extracted include
list resolves to exactly the next chain member (finally to `m`), and `m`
itself is absent from the registry. -/
def ChainTo (fs : FS) (t : RSNode) (m : String) : List String → Prop
  | [] => RSNode.contains t m = false
  | n :: rest =>
    (∃ it, RSNode.getItem t n = some it ∧ it.seen = false ∧
      freshNames fs it.file_path = [nextTarget m rest]) ∧ ChainTo fs t m rest

/-- Path `root/a.h` of the end-to-end scenario. -/
def pathA : List String := ["root", "a.h"]

/-- Path `root/sub/b.h` of the end-to-end scenario. -/
def pathB : List String := ["root", "sub", "b.h"]

/-- Registry entry for `root/a.h`, freshly scanned. -/
def itemA : RSItem := ⟨"a.h", pathA, false, none⟩

/-- Registry entry for `root/sub/b.h`, freshly scanned. -/
def itemB : RSItem := ⟨"b.h", pathB, false, none⟩

/-- The end-to-end registry: both headers, in scan order. -/
def treeAB : RSNode := (RSNode.nil.insert itemA).insert itemB

/-- The registry after `sub/b.h` is removed. -/
def treeA : RSNode := RSNode.nil.insert itemA

/-- The end-to-end filesystem: `a.h` includes `"b.h"`, `b.h` is empty. -/
def fsAB : FS := fun p => if p = pathA then ["#include \"b.h\""] else []

/-- A filesystem making `a.h` and `b.h` a mutual include cycle. -/
def fsCycle : FS :=
  fun p => if p = pathA then ["#include \"b.h\""]
    else if p = pathB then ["#include \"a.h\""] else []

/-- Registry entry for `a.h` already visited and decided resolvable. -/
def itemA2 : RSItem := ⟨"a.h", pathA, true, some true⟩

/-- A registry state with one decided entry and one fresh entry. -/
def treeC2 : RSNode := (RSNode.nil.insert itemA2).insert itemB

/-- Path `root/c.h` of the missing-include chain scenario. -/
def pathC : List String := ["root", "c.h"]

/-- Registry entry for `root/c.h`, freshly scanned. -/
def itemC : RSItem := ⟨"c.h", pathC, false, none⟩

/-- Chain registry: `c.h` and `b.h` present, `missing.h` absent. -/
def treeCB : RSNode := (RSNode.nil.insert itemC).insert itemB

/-- Chain filesystem: `c.h` includes `"b.h"`, `b.h` includes the absent
`"missing.h"`. -/
def fsChain : FS :=
  fun p => if p = pathC then ["#include \"b.h\""]
    else if p = pathB then ["#include \"missing.h\""] else []

/-- Path `a/x.h` of the directory-collection scenario. -/
def pathX : List String := ["a", "x.h"]

/-- Path `b/y.h` of the directory-collection scenario. -/
def pathY : List String := ["b", "y.h"]

/-- Registry entry for `a/x.h`, freshly scanned. -/
def itemX : RSItem := ⟨"x.h", pathX, false, none⟩

/-- Registry entry for `b/y.h`, freshly scanned. -/
def itemY : RSItem := ⟨"y.h", pathY, false, none⟩

/-- Directory-collection registry: `x.h` and `y.h`. -/
def treeXY : RSNode := (RSNode.nil.insert itemX).insert itemY

/-- Directory-collection filesystem: `x.h` includes `"y.h"` by bare name. -/
def fsXY : FS := fun p => if p = pathX then ["#include \"y.h\""] else []

/-- A registry whose `a.h` entry records the path `p1/a.h`. -/
def treeW1 : RSNode := RSNode.nil.insert ⟨"a.h", ["p1", "a.h"], false, none⟩

/-- A registry whose `a.h` entry records the path `p2/a.h`. -/
def treeW2 : RSNode := RSNode.nil.insert ⟨"a.h", ["p2", "a.h"], false, none⟩

/-- The `a.h` entry of `treeW2`, which wins the merge tie-break. -/
def itemRight : RSItem := ⟨"a.h", ["p2", "a.h"], false, none⟩

/-- A two-object store holding `treeW1` and `treeW2`. -/
def heapW : Heap := [treeW1, treeW2]

/-- The oracle declaring every file plain text. -/
def ascAll : List String → Bool := fun _ => true

/-- A scanned header file with suffix `.h`. -/
def fileH : ScanFile := ⟨["root", "a.h"], ".h"⟩

theorem charLt_irrefl (c : Char) : charLt c c = false := by
  simp [charLt]

theorem charLt_asymm {c d : Char} (h1 : charLt c d = true) (h2 : charLt d c = true) : False := by
  simp [charLt] at h1 h2
  exact absurd h1 (not_lt.mpr (le_of_lt h2))

theorem charLt_total_eq {c d : Char} (h1 : charLt c d = false) (h2 : charLt d c = false) : c = d := by
  simp [charLt] at h1 h2
  exact le_antisymm h2 h1

theorem listLtB_asymm : ∀ (xs ys : List Char), listLtB xs ys = true → listLtB ys xs = true → False := by
  intro xs
  induction xs with
  | nil => intro ys h1 h2; cases ys <;> simp [listLtB] at h1 h2
  | cons c cs ih =>
    intro ys h1 h2
    cases ys with
    | nil => simp [listLtB] at h1
    | cons d ds =>
      cases hcd : charLt c d with
      | true =>
        cases hdc : charLt d c with
        | true => exact charLt_asymm hcd hdc
        | false => simp [listLtB, hcd, hdc] at h2
      | false =>
        cases hdc : charLt d c with
        | true => simp [listLtB, hcd, hdc] at h1
        | false =>
          simp [listLtB, hcd, hdc] at h1 h2
          exact ih ds h1 h2

theorem listLtB_total_eq : ∀ (xs ys : List Char), listLtB xs ys = false → listLtB ys xs = false → xs = ys := by
  intro xs
  induction xs with
  | nil => intro ys h1 h2; cases ys with
    | nil => rfl
    | cons d ds => simp [listLtB] at h1
  | cons c cs ih =>
    intro ys h1 h2
    cases ys with
    | nil => simp [listLtB] at h2
    | cons d ds =>
      cases hcd : charLt c d with
      | true => simp [listLtB, hcd] at h1
      | false =>
        cases hdc : charLt d c with
        | true => simp [listLtB, hdc] at h2
        | false =>
          simp [listLtB, hcd, hdc] at h1 h2
          have hc : c = d := charLt_total_eq hcd hdc
          rw [hc, ih ds h1 h2]

theorem listLtB_irrefl : ∀ (xs : List Char), listLtB xs xs = false := by
  intro xs
  induction xs with
  | nil => rfl
  | cons c cs ih => simp [listLtB, charLt_irrefl, ih]

theorem strLtB_irrefl (a : String) : strLtB a a = false := listLtB_irrefl a.data

theorem strLtB_asymm {a b : String} (h1 : strLtB a b = true) (h2 : strLtB b a = true) : False :=
  listLtB_asymm a.data b.data h1 h2

theorem strLtB_total_eq {a b : String} (h1 : strLtB a b = false) (h2 : strLtB b a = false) : a = b := by
  cases a with
  | mk la =>
    cases b with
    | mk lb => exact congrArg String.mk (listLtB_total_eq la lb h1 h2)

namespace RSNode

theorem contains_eq_isSome : ∀ (t : RSNode) (k : String), contains t k = (getItem t k).isSome := by
  intro t k
  induction t with
  | nil => rfl
  | node it l r ihl ihr =>
    simp only [contains, getItem]
    by_cases h1 : k = it.file_name
    · simp [h1]
    · simp only [h1, if_false]
      by_cases h2 : strLtB k it.file_name = true
      · simp [h2, ihl]
      · simp only [Bool.not_eq_true] at h2
        simp only [h2, Bool.false_eq_true, if_false]
        by_cases h3 : strLtB it.file_name k = true
        · simp [h3, ihr]
        · simp only [Bool.not_eq_true] at h3
          exact absurd (strLtB_total_eq h2 h3) h1

theorem getItem_some_name : ∀ (t : RSNode) (k : String) (it : RSItem),
    getItem t k = some it → it.file_name = k := by
  intro t k
  induction t with
  | nil => intro it h; simp [getItem] at h
  | node x l r ihl ihr =>
    intro it h
    simp only [getItem] at h
    by_cases h1 : k = x.file_name
    · simp [h1] at h; rw [← h, h1]
    · simp only [h1, if_false] at h
      by_cases h2 : strLtB k x.file_name = true
      · simp only [h2, if_true] at h; exact ihl it h
      · simp only [h2, if_false] at h; exact ihr it h

theorem getItem_mem_itemsList : ∀ (t : RSNode) (k : String) (it : RSItem),
    getItem t k = some it → it ∈ itemsList t := by
  intro t k
  induction t with
  | nil => intro it h; simp [getItem] at h
  | node x l r ihl ihr =>
    intro it h
    simp only [getItem] at h
    simp only [itemsList, List.mem_append, List.mem_cons]
    by_cases h1 : k = x.file_name
    · simp [h1] at h; right; left; exact h.symm
    · simp only [h1, if_false] at h
      by_cases h2 : strLtB k x.file_name = true
      · simp only [h2, if_true] at h; left; exact ihl it h
      · simp only [h2, if_false] at h; right; right; exact ihr it h

theorem mem_keys_of_getItem : ∀ (t : RSNode) (k : String) (it : RSItem),
    getItem t k = some it → k ∈ keys t := by
  intro t k
  induction t with
  | nil => intro it h; simp [getItem] at h
  | node x l r ihl ihr =>
    intro it h
    simp only [getItem] at h
    simp only [keys, List.mem_append, List.mem_cons]
    by_cases h1 : k = x.file_name
    · right; left; exact h1
    · simp only [h1, if_false] at h
      by_cases h2 : strLtB k x.file_name = true
      · simp only [h2, if_true] at h; left; exact ihl it h
      · simp only [h2, if_false] at h; right; right; exact ihr it h

theorem getItem_eq_none (t : RSNode) (k : String) (h : k ∉ keys t) : getItem t k = none := by
  cases hg : getItem t k with
  | none => rfl
  | some it => exact absurd (mem_keys_of_getItem t k it hg) h

theorem getItem_updateItem_self (f : RSItem → RSItem)
    (hf : ∀ it, (f it).file_name = it.file_name) :
    ∀ (t : RSNode) (k : String), getItem (updateItem f t k) k = (getItem t k).map f := by
  intro t k
  induction t with
  | nil => rfl
  | node x l r ihl ihr =>
    simp only [updateItem]
    by_cases h1 : k = x.file_name
    · simp [getItem, h1, hf x]
    · simp only [h1, if_false]
      by_cases h2 : strLtB k x.file_name = true
      · simp [getItem, h1, h2, ihl]
      · simp [getItem, h1, h2, ihr]

theorem getItem_updateItem_ne (f : RSItem → RSItem)
    (hf : ∀ it, (f it).file_name = it.file_name) :
    ∀ (t : RSNode) (k k' : String), k' ≠ k → getItem (updateItem f t k) k' = getItem t k' := by
  intro t k k' hne
  induction t with
  | nil => rfl
  | node x l r ihl ihr =>
    simp only [updateItem]
    by_cases h1 : k = x.file_name
    · have hk : k' ≠ x.file_name := by rw [← h1]; exact hne
      simp [getItem, hf x, hk, h1]
    · simp only [h1, if_false]
      by_cases h2 : strLtB k x.file_name = true
      · simp [getItem, h2, ihl]
      · simp [getItem, h2, ihr]

theorem contains_updateItem (f : RSItem → RSItem)
    (hf : ∀ it, (f it).file_name = it.file_name) (t : RSNode) (k k' : String) :
    contains (updateItem f t k) k' = contains t k' := by
  by_cases h : k' = k
  · subst h
    rw [contains_eq_isSome, contains_eq_isSome, getItem_updateItem_self f hf]
    cases getItem t k' <;> rfl
  · rw [contains_eq_isSome, contains_eq_isSome, getItem_updateItem_ne f hf t k k' h]

theorem size_pos_of_getItem (t : RSNode) (k : String) (it : RSItem)
    (h : getItem t k = some it) : 1 ≤ size t := by
  cases t with
  | nil => simp [getItem] at h
  | node x l r => simp [size]; omega

theorem size_eq_length_itemsList : ∀ (t : RSNode), size t = (itemsList t).length := by
  intro t
  induction t with
  | nil => rfl
  | node x l r ihl ihr => simp [size, itemsList, ihl, ihr]; omega

theorem two_le_length_of_mem {α : Type} {x y : α} :
    ∀ {l : List α}, x ∈ l → y ∈ l → x ≠ y → 2 ≤ l.length := by
  intro l hx hy hne
  cases l with
  | nil => simp at hx
  | cons a as =>
    cases as with
    | nil =>
      simp only [List.mem_singleton] at hx hy
      exact absurd (hx.trans hy.symm) hne
    | cons b bs => simp [List.length]

theorem size_two_of_getItem (t : RSNode) (a b : String) (ita itb : RSItem)
    (ha : getItem t a = some ita) (hb : getItem t b = some itb) (hne : a ≠ b) :
    2 ≤ size t := by
  rw [size_eq_length_itemsList]
  have hna := getItem_some_name t a ita ha
  have hnb := getItem_some_name t b itb hb
  refine two_le_length_of_mem (getItem_mem_itemsList t a ita ha)
    (getItem_mem_itemsList t b itb hb) (fun hcontra => hne ?_)
  rw [← hna, ← hnb, hcontra]

theorem getItem_insert_self : ∀ (t : RSNode) (x : RSItem),
    getItem (insert t x) x.file_name = some x := by
  intro t x
  induction t with
  | nil => simp [insert, getItem]
  | node y l r ihl ihr =>
    simp only [insert]
    by_cases h1 : x.file_name = y.file_name
    · simp [getItem, h1]
    · simp only [h1, if_false]
      by_cases h2 : strLtB x.file_name y.file_name = true
      · simp [getItem, h1, h2, ihl]
      · simp [getItem, h1, h2, ihr]

theorem getItem_insert_ne : ∀ (t : RSNode) (x : RSItem) (k : String),
    k ≠ x.file_name → getItem (insert t x) k = getItem t k := by
  intro t x k hne
  induction t with
  | nil => simp [insert, getItem, hne]
  | node y l r ihl ihr =>
    simp only [insert]
    by_cases h1 : x.file_name = y.file_name
    · have hk : k ≠ y.file_name := fun h => hne (h.trans h1.symm)
      simp [getItem, hne, hk, h1]
    · simp only [h1, if_false]
      by_cases h2 : strLtB x.file_name y.file_name = true
      · simp only [h2, if_true]
        by_cases hk : k = y.file_name
        · simp [getItem, hk]
        · simp [getItem, hk, ihl]
      · simp only [h2, if_false]
        by_cases hk : k = y.file_name
        · simp [getItem, hk]
        · simp [getItem, hk, ihr]

theorem mem_keys_insert : ∀ (t : RSNode) (x : RSItem) (k : String),
    k ∈ keys (insert t x) ↔ k = x.file_name ∨ k ∈ keys t := by
  intro t x k
  induction t with
  | nil => simp [insert, keys]
  | node y l r ihl ihr =>
    simp only [insert]
    by_cases h1 : x.file_name = y.file_name
    · simp only [h1, if_true, keys, List.mem_append, List.mem_cons]
      rw [← h1]
      tauto
    · simp only [h1, if_false]
      by_cases h2 : strLtB x.file_name y.file_name = true
      · simp only [h2, if_true, keys, List.mem_append, List.mem_cons, ihl]
        tauto
      · simp only [h2, if_false, keys, List.mem_append, List.mem_cons, ihr]
        tauto

theorem isBST_node {it : RSItem} {l r : RSNode} (h : isBST (node it l r) = true) :
    (∀ k ∈ keys l, strLtB k it.file_name = true) ∧
    (∀ k ∈ keys r, strLtB it.file_name k = true) ∧ isBST l = true ∧ isBST r = true := by
  simp only [isBST, Bool.and_eq_true, List.all_eq_true] at h
  exact ⟨h.1.1.1, h.1.1.2, h.1.2, h.2⟩

theorem getItem_orOp : ∀ (u t : RSNode) (k : String), isBST u = true →
    getItem (orOp t u) k = optOr (getItem u k) (getItem t k) := by
  intro u
  induction u with
  | nil => intro t k _; simp [orOp, getItem, optOr]
  | node it l r ihl ihr =>
    intro t k hbst
    obtain ⟨hl, hr, bl, br⟩ := isBST_node hbst
    show getItem (orOp (orOp (RSNode.insert t it) l) r) k = _
    rw [ihr _ _ br, ihl _ _ bl]
    by_cases h1 : k = it.file_name
    · have hrk : getItem r k = none := by
        refine getItem_eq_none r k (fun hmem => ?_)
        have := hr k hmem
        rw [h1] at this
        rw [strLtB_irrefl] at this
        exact Bool.false_ne_true this
      have hlk : getItem l k = none := by
        refine getItem_eq_none l k (fun hmem => ?_)
        have := hl k hmem
        rw [h1] at this
        rw [strLtB_irrefl] at this
        exact Bool.false_ne_true this
      rw [hrk, hlk]
      simp only [optOr]
      rw [h1, getItem_insert_self]
      simp [getItem, h1, optOr]
    · by_cases h2 : strLtB k it.file_name = true
      · have hrk : getItem r k = none := by
          refine getItem_eq_none r k (fun hmem => ?_)
          exact strLtB_asymm h2 (hr k hmem)
        rw [hrk]
        simp only [optOr]
        rw [getItem_insert_ne t it k h1]
        simp [getItem, h1, h2]
      · have hlk : getItem l k = none := by
          refine getItem_eq_none l k (fun hmem => ?_)
          have := hl k hmem
          rw [Bool.not_eq_true] at h2
          rw [h2] at this
          exact Bool.false_ne_true this
        rw [hlk]
        simp only [optOr]
        rw [getItem_insert_ne t it k h1]
        simp [getItem, h1, h2]

theorem mem_keys_orOp : ∀ (u t : RSNode) (k : String),
    k ∈ keys (orOp t u) ↔ k ∈ keys t ∨ k ∈ keys u := by
  intro u
  induction u with
  | nil => intro t k; simp [orOp, keys]
  | node it l r ihl ihr =>
    intro t k
    show k ∈ keys (orOp (orOp (RSNode.insert t it) l) r) ↔ _
    rw [ihr, ihl, mem_keys_insert]
    simp only [keys, List.mem_append, List.mem_cons]
    tauto

end RSNode


theorem entryRel_refl : ∀ (o : Option RSItem), EntryRel o o := by
  intro o
  cases o with
  | none => trivial
  | some it => exact ⟨rfl, rfl, fun h => h⟩

theorem entryRel_trans {a b c : Option RSItem} (h1 : EntryRel a b) (h2 : EntryRel b c) :
    EntryRel a c := by
  cases a with
  | none =>
    cases b with
    | none => exact h2
    | some y => exact h1.elim
  | some x =>
    cases b with
    | none => exact h1.elim
    | some y =>
      cases c with
      | none => exact h2.elim
      | some z =>
        obtain ⟨n1, p1, s1⟩ := h1
        obtain ⟨n2, p2, s2⟩ := h2
        exact ⟨n2.trans n1, p2.trans p1, fun h => s2 (s1 h)⟩

theorem entryRel_updateItem (f : RSItem → RSItem)
    (hf : ∀ it, (f it).file_name = it.file_name)
    (hp : ∀ it, (f it).file_path = it.file_path)
    (hs : ∀ it, it.seen = true → (f it).seen = true)
    (t : RSNode) (k k' : String) :
    EntryRel (RSNode.getItem t k') (RSNode.getItem (RSNode.updateItem f t k) k') := by
  by_cases h : k' = k
  · subst h
    rw [RSNode.getItem_updateItem_self f hf]
    cases RSNode.getItem t k' with
    | none => trivial
    | some it => exact ⟨hf it, hp it, hs it⟩
  · rw [RSNode.getItem_updateItem_ne f hf t k k' h]
    exact entryRel_refl _


theorem entryRel_mark (t : RSNode) (k k' : String) :
    EntryRel (RSNode.getItem t k') (RSNode.getItem (RSNode.mark_as_seen t k) k') :=
  entryRel_updateItem (fun it => { it with seen := true })
    (fun _ => rfl) (fun _ => rfl) (fun _ _ => rfl) t k k'

theorem entryRel_setOk (t : RSNode) (k : String) (v : Bool) (k' : String) :
    EntryRel (RSNode.getItem t k') (RSNode.getItem (RSNode.set_ok_to_include t k v) k') :=
  entryRel_updateItem (fun it => { it with ok := some v })
    (fun _ => rfl) (fun _ => rfl) (fun _ h => h) t k k'

namespace RSNode

theorem contains_of_getItem_some {t : RSNode} {k : String} {it : RSItem}
    (h : getItem t k = some it) : contains t k = true := by
  rw [contains_eq_isSome, h]; rfl

theorem contains_eq_false_of_getItem_none {t : RSNode} {k : String}
    (h : getItem t k = none) : contains t k = false := by
  rw [contains_eq_isSome, h]; rfl

theorem getItem_some_of_contains {t : RSNode} {k : String}
    (h : contains t k = true) : ∃ it, getItem t k = some it := by
  rw [contains_eq_isSome] at h
  exact Option.isSome_iff_exists.mp h

theorem has_been_seen_eq {t : RSNode} {k : String} {it : RSItem}
    (h : getItem t k = some it) : has_been_seen t k = it.seen := by
  rw [has_been_seen, contains_of_getItem_some h, h]
  simp

theorem is_ok_to_include_eq {t : RSNode} {k : String} {it : RSItem}
    (h : getItem t k = some it) : is_ok_to_include t k = it.ok := by
  rw [is_ok_to_include, h]; rfl

theorem get_item_path_eq {t : RSNode} {k : String} {it : RSItem}
    (h : getItem t k = some it) : get_item_path t k = some it.file_path := by
  rw [get_item_path, h]; rfl

theorem getItem_mark_self {t : RSNode} {k : String} {it : RSItem}
    (h : getItem t k = some it) :
    getItem (mark_as_seen t k) k = some { it with seen := true } := by
  rw [mark_as_seen,
    getItem_updateItem_self (fun it => { it with seen := true }) (fun _ => rfl), h]
  rfl

theorem getItem_mark_ne (t : RSNode) (k k' : String) (h : k' ≠ k) :
    getItem (mark_as_seen t k) k' = getItem t k' :=
  getItem_updateItem_ne (fun it => { it with seen := true }) (fun _ => rfl) t k k' h

theorem getItem_setOk_self {t : RSNode} {k : String} {it : RSItem} (v : Bool)
    (h : getItem t k = some it) :
    getItem (set_ok_to_include t k v) k = some { it with ok := some v } := by
  rw [set_ok_to_include,
    getItem_updateItem_self (fun it => { it with ok := some v }) (fun _ => rfl), h]
  rfl

theorem getItem_setOk_ne (t : RSNode) (k : String) (v : Bool) (k' : String) (h : k' ≠ k) :
    getItem (set_ok_to_include t k v) k' = getItem t k' :=
  getItem_updateItem_ne (fun it => { it with ok := some v }) (fun _ => rfl) t k k' h

theorem get_item_path_mark {t : RSNode} {name : String} {it : RSItem}
    (h : getItem t name = some it) :
    get_item_path (mark_as_seen t name) name = some it.file_path := by
  rw [get_item_path_eq (getItem_mark_self h)]

end RSNode

theorem depOkF_succ_absent (fs : FS) (fuel : Nat) (name : String) (t : RSNode) (acc : DirSet)
    (h : RSNode.contains t name = false) :
    depOkF fs (fuel + 1) name t acc = ⟨false, t, acc, 0⟩ := by
  simp [depOkF, h]

theorem depOkF_succ_memo (fs : FS) (fuel : Nat) (name : String) (t : RSNode) (acc : DirSet)
    (b : Bool) (h1 : RSNode.contains t name = true) (h2 : RSNode.has_been_seen t name = true)
    (h3 : RSNode.is_ok_to_include t name = some b) :
    depOkF fs (fuel + 1) name t acc = ⟨b, t, acc, 0⟩ := by
  simp [depOkF, h1, h2, h3]

theorem depOkF_succ_cycle (fs : FS) (fuel : Nat) (name : String) (t : RSNode) (acc : DirSet)
    (h1 : RSNode.contains t name = true) (h2 : RSNode.has_been_seen t name = true)
    (h3 : RSNode.is_ok_to_include t name = none) :
    depOkF fs (fuel + 1) name t acc = ⟨true, t, acc, 0⟩ := by
  simp [depOkF, h1, h2, h3]

theorem depOkF_succ_fresh (fs : FS) (fuel : Nat) (name : String) (t : RSNode) (acc : DirSet)
    (fp : List String) (h1 : RSNode.contains t name = true)
    (h2 : RSNode.has_been_seen t name = false)
    (hp : RSNode.get_item_path (RSNode.mark_as_seen t name) name = some fp) :
    depOkF fs (fuel + 1) name t acc =
      depFreshBody fs (depOkF fs fuel) name (RSNode.mark_as_seen t name) acc fp := by
  simp [depOkF, h1, h2, hp]

theorem depGo_entryRel (dep : String → RSNode → DirSet → DepRes)
    (hdep : ∀ n t a k', EntryRel (RSNode.getItem t k') (RSNode.getItem (dep n t a).tree k')) :
    ∀ (names : List String) (t : RSNode) (a : DirSet) (k' : String),
      EntryRel (RSNode.getItem t k') (RSNode.getItem ((depGo dep names t a).tree) k') := by
  intro names
  induction names with
  | nil => intro t a k'; exact entryRel_refl _
  | cons n ns ih =>
    intro t a k'
    exact entryRel_trans (hdep n t a k') (ih (dep n t a).tree (dep n t a).dirs k')


theorem depFreshBody_ok (fs : FS) (dep : String → RSNode → DirSet → DepRes) (name : String)
    (t1 : RSNode) (acc : DirSet) (fp : List String) :
    (depFreshBody fs dep name t1 acc fp).ok = andl (freshGo fs dep t1 fp).oks := rfl

theorem depFreshBody_tree (fs : FS) (dep : String → RSNode → DirSet → DepRes) (name : String)
    (t1 : RSNode) (acc : DirSet) (fp : List String) :
    (depFreshBody fs dep name t1 acc fp).tree =
      RSNode.set_ok_to_include (freshGo fs dep t1 fp).tree name
        (andl (freshGo fs dep t1 fp).oks) := rfl

theorem depFreshBody_dirs (fs : FS) (dep : String → RSNode → DirSet → DepRes) (name : String)
    (t1 : RSNode) (acc : DirSet) (fp : List String) :
    (depFreshBody fs dep name t1 acc fp).dirs =
      if andl (freshGo fs dep t1 fp).oks then acc ∪ (freshGo fs dep t1 fp).dirs else acc := rfl

theorem depFreshBody_calls (fs : FS) (dep : String → RSNode → DirSet → DepRes) (name : String)
    (t1 : RSNode) (acc : DirSet) (fp : List String) :
    (depFreshBody fs dep name t1 acc fp).calls = (freshGo fs dep t1 fp).calls + 1 := rfl

theorem depOkF_entryRel (fs : FS) :
    ∀ (fuel : Nat) (n : String) (t : RSNode) (a : DirSet) (k' : String),
      EntryRel (RSNode.getItem t k') (RSNode.getItem (depOkF fs fuel n t a).tree k') := by
  intro fuel
  induction fuel with
  | zero => intro n t a k'; exact entryRel_refl _
  | succ fuel ih =>
    intro n t a k'
    cases hcb : RSNode.contains t n with
    | false => rw [depOkF_succ_absent fs fuel n t a hcb]; exact entryRel_refl _
    | true =>
      obtain ⟨it, hit⟩ := RSNode.getItem_some_of_contains hcb
      cases hsb : it.seen with
      | true =>
        have hseen : RSNode.has_been_seen t n = true := by
          rw [RSNode.has_been_seen_eq hit, hsb]
        cases hok : it.ok with
        | some b =>
          rw [depOkF_succ_memo fs fuel n t a b hcb hseen
            (by rw [RSNode.is_ok_to_include_eq hit, hok])]
          exact entryRel_refl _
        | none =>
          rw [depOkF_succ_cycle fs fuel n t a hcb hseen
            (by rw [RSNode.is_ok_to_include_eq hit, hok])]
          exact entryRel_refl _
      | false =>
        have hseen : RSNode.has_been_seen t n = false := by
          rw [RSNode.has_been_seen_eq hit, hsb]
        rw [depOkF_succ_fresh fs fuel n t a it.file_path hcb hseen
          (RSNode.get_item_path_mark hit)]
        refine entryRel_trans (entryRel_mark t n k') ?_
        refine entryRel_trans
          (depGo_entryRel (depOkF fs fuel) (fun n2 t2 a2 k2 => ih n2 t2 a2 k2)
            ((get_includes (fs it.file_path)).map lastComp) (RSNode.mark_as_seen t n)
            (localDirsOf (RSNode.mark_as_seen t n) it.file_path.dropLast
              (get_includes (fs it.file_path)) ((get_includes (fs it.file_path)).map lastComp))
            k') ?_
        exact entryRel_setOk _ n _ k'

theorem entryRel_isSome {a b : Option RSItem} (h : EntryRel a b) : b.isSome = a.isSome := by
  cases a with
  | none =>
    cases b with
    | none => rfl
    | some y => exact h.elim
  | some x =>
    cases b with
    | none => exact h.elim
    | some y => rfl

theorem depOkF_contains (fs : FS) (fuel : Nat) (n : String) (t : RSNode) (a : DirSet)
    (k' : String) :
    RSNode.contains (depOkF fs fuel n t a).tree k' = RSNode.contains t k' := by
  rw [RSNode.contains_eq_isSome, RSNode.contains_eq_isSome]
  exact entryRel_isSome (depOkF_entryRel fs fuel n t a k')

theorem depOkF_getItem_none (fs : FS) (fuel : Nat) (n : String) (t : RSNode) (a : DirSet)
    (k' : String) (h : RSNode.getItem t k' = none) :
    RSNode.getItem (depOkF fs fuel n t a).tree k' = none := by
  have hrel := depOkF_entryRel fs fuel n t a k'
  rw [h] at hrel
  cases hg : RSNode.getItem (depOkF fs fuel n t a).tree k' with
  | none => rfl
  | some it2 => rw [hg] at hrel; exact hrel.elim


theorem okSeenB_to_P (t : RSNode) (h : OkSeenB t = true) : OkSeenP t := by
  intro k it hg hok
  have hmem := RSNode.getItem_mem_itemsList t k it hg
  have := List.all_eq_true.mp h it hmem
  rw [hok] at this
  simpa using this

theorem okSeenP_mark (t : RSNode) (n : String) (h : OkSeenP t) :
    OkSeenP (RSNode.mark_as_seen t n) := by
  intro k it2 hg hok
  by_cases hk : k = n
  · subst hk
    cases hgt : RSNode.getItem t k with
    | none =>
      rw [RSNode.mark_as_seen,
        RSNode.getItem_updateItem_self (fun it => { it with seen := true }) (fun _ => rfl),
        hgt] at hg
      exact absurd hg (by simp)
    | some it =>
      rw [RSNode.getItem_mark_self hgt] at hg
      cases hg
      rfl
  · rw [RSNode.getItem_mark_ne t n k hk] at hg
    exact h k it2 hg hok

theorem depGo_seenOkFrozen (dep : String → RSNode → DirSet → DepRes)
    (hdep : ∀ n t a k it, RSNode.getItem t k = some it → it.seen = true →
      ∃ it2, RSNode.getItem (dep n t a).tree k = some it2 ∧ it2.seen = true ∧ it2.ok = it.ok) :
    ∀ (names : List String) (t : RSNode) (a : DirSet) (k : String) (it : RSItem),
      RSNode.getItem t k = some it → it.seen = true →
      ∃ it2, RSNode.getItem ((depGo dep names t a).tree) k = some it2 ∧
        it2.seen = true ∧ it2.ok = it.ok := by
  intro names
  induction names with
  | nil => intro t a k it hg hs; exact ⟨it, hg, hs, rfl⟩
  | cons n ns ih =>
    intro t a k it hg hs
    obtain ⟨it1, hg1, hs1, ho1⟩ := hdep n t a k it hg hs
    obtain ⟨it2, hg2, hs2, ho2⟩ := ih (dep n t a).tree (dep n t a).dirs k it1 hg1 hs1
    exact ⟨it2, hg2, hs2, ho2.trans ho1⟩

theorem depOkF_seenOkFrozen (fs : FS) :
    ∀ (fuel : Nat) (n : String) (t : RSNode) (a : DirSet) (k : String) (it : RSItem),
      RSNode.getItem t k = some it → it.seen = true →
      ∃ it2, RSNode.getItem (depOkF fs fuel n t a).tree k = some it2 ∧
        it2.seen = true ∧ it2.ok = it.ok := by
  intro fuel
  induction fuel with
  | zero => intro n t a k it hg hs; exact ⟨it, hg, hs, rfl⟩
  | succ fuel ih =>
    intro n t a k it hg hs
    cases hcb : RSNode.contains t n with
    | false => rw [depOkF_succ_absent fs fuel n t a hcb]; exact ⟨it, hg, hs, rfl⟩
    | true =>
      obtain ⟨itn, hitn⟩ := RSNode.getItem_some_of_contains hcb
      cases hsb : itn.seen with
      | true =>
        have hseen : RSNode.has_been_seen t n = true := by
          rw [RSNode.has_been_seen_eq hitn, hsb]
        cases hok : itn.ok with
        | some b =>
          rw [depOkF_succ_memo fs fuel n t a b hcb hseen
            (by rw [RSNode.is_ok_to_include_eq hitn, hok])]
          exact ⟨it, hg, hs, rfl⟩
        | none =>
          rw [depOkF_succ_cycle fs fuel n t a hcb hseen
            (by rw [RSNode.is_ok_to_include_eq hitn, hok])]
          exact ⟨it, hg, hs, rfl⟩
      | false =>
        have hseen : RSNode.has_been_seen t n = false := by
          rw [RSNode.has_been_seen_eq hitn, hsb]
        rw [depOkF_succ_fresh fs fuel n t a itn.file_path hcb hseen
          (RSNode.get_item_path_mark hitn)]
        have hk : k ≠ n := by
          intro hkn
          rw [hkn, hitn] at hg
          cases hg
          rw [hs] at hsb
          exact Bool.false_ne_true hsb.symm
        have hg1 : RSNode.getItem (RSNode.mark_as_seen t n) k = some it :=
          (RSNode.getItem_mark_ne t n k hk).trans hg
        obtain ⟨it2, hg2, hs2, ho2⟩ :=
          depGo_seenOkFrozen (depOkF fs fuel) (fun n2 t2 a2 k2 it2 h2 s2 => ih n2 t2 a2 k2 it2 h2 s2)
            ((get_includes (fs itn.file_path)).map lastComp) (RSNode.mark_as_seen t n)
            (localDirsOf (RSNode.mark_as_seen t n) itn.file_path.dropLast
              (get_includes (fs itn.file_path)) ((get_includes (fs itn.file_path)).map lastComp))
            k it hg1 hs
        refine ⟨it2, ?_, hs2, ho2⟩
        exact (RSNode.getItem_setOk_ne _ n _ k hk).trans hg2

theorem depGo_okSeenP (dep : String → RSNode → DirSet → DepRes)
    (hdep : ∀ n t a, OkSeenP t → OkSeenP (dep n t a).tree) :
    ∀ (names : List String) (t : RSNode) (a : DirSet), OkSeenP t →
      OkSeenP ((depGo dep names t a).tree) := by
  intro names
  induction names with
  | nil => intro t a h; exact h
  | cons n ns ih => intro t a h; exact ih (dep n t a).tree (dep n t a).dirs (hdep n t a h)

theorem depOkF_okSeenP (fs : FS) :
    ∀ (fuel : Nat) (n : String) (t : RSNode) (a : DirSet), OkSeenP t →
      OkSeenP (depOkF fs fuel n t a).tree := by
  intro fuel
  induction fuel with
  | zero => intro n t a h; exact h
  | succ fuel ih =>
    intro n t a h
    cases hcb : RSNode.contains t n with
    | false => rw [depOkF_succ_absent fs fuel n t a hcb]; exact h
    | true =>
      obtain ⟨itn, hitn⟩ := RSNode.getItem_some_of_contains hcb
      cases hsb : itn.seen with
      | true =>
        have hseen : RSNode.has_been_seen t n = true := by
          rw [RSNode.has_been_seen_eq hitn, hsb]
        cases hok : itn.ok with
        | some b =>
          rw [depOkF_succ_memo fs fuel n t a b hcb hseen
            (by rw [RSNode.is_ok_to_include_eq hitn, hok])]
          exact h
        | none =>
          rw [depOkF_succ_cycle fs fuel n t a hcb hseen
            (by rw [RSNode.is_ok_to_include_eq hitn, hok])]
          exact h
      | false =>
        have hseen : RSNode.has_been_seen t n = false := by
          rw [RSNode.has_been_seen_eq hitn, hsb]
        rw [depOkF_succ_fresh fs fuel n t a itn.file_path hcb hseen
          (RSNode.get_item_path_mark hitn)]
        have h1 : OkSeenP (RSNode.mark_as_seen t n) := okSeenP_mark t n h
        have h2 : OkSeenP ((freshGo fs (depOkF fs fuel) (RSNode.mark_as_seen t n)
            itn.file_path).tree) :=
          depGo_okSeenP (depOkF fs fuel) (fun n2 t2 a2 hh => ih n2 t2 a2 hh) _ _ _ h1
        intro k it2 hg hok2
        rw [depFreshBody_tree] at hg
        by_cases hk : k = n
        · have hfroz : ∃ itm, RSNode.getItem ((freshGo fs (depOkF fs fuel)
              (RSNode.mark_as_seen t n) itn.file_path).tree) n = some itm ∧
              itm.seen = true ∧ itm.ok = ({ itn with seen := true } : RSItem).ok :=
            depGo_seenOkFrozen (depOkF fs fuel)
              (fun n2 t2 a2 k2 it3 h3 s3 => depOkF_seenOkFrozen fs fuel n2 t2 a2 k2 it3 h3 s3)
              (freshNames fs itn.file_path) (RSNode.mark_as_seen t n)
              (freshDirs fs (RSNode.mark_as_seen t n) itn.file_path)
              n { itn with seen := true } (RSNode.getItem_mark_self hitn) rfl
          obtain ⟨itm, hgm, hsm, hom⟩ := hfroz
          rw [hk] at hg
          rw [RSNode.getItem_setOk_self _ hgm] at hg
          cases hg
          exact hsm
        · rw [RSNode.getItem_setOk_ne _ n _ k hk] at hg
          exact h2 k it2 hg hok2

theorem depOkF_ok_immutable (fs : FS) (fuel : Nat) (n : String) (t : RSNode) (a : DirSet)
    (k : String) (b : Bool) (hinv : OkSeenP t) (h : RSNode.is_ok_to_include t k = some b) :
    RSNode.is_ok_to_include (depOkF fs fuel n t a).tree k = some b := by
  cases hg : RSNode.getItem t k with
  | none => rw [RSNode.is_ok_to_include, hg] at h; exact absurd h (by simp)
  | some it =>
    have hok : it.ok = some b := by rw [RSNode.is_ok_to_include_eq hg] at h; exact h
    have hseen : it.seen = true := hinv k it hg (by rw [hok]; rfl)
    obtain ⟨it2, hg2, _, ho2⟩ := depOkF_seenOkFrozen fs fuel n t a k it hg hseen
    rw [RSNode.is_ok_to_include_eq hg2, ho2, hok]

theorem depGo_nil (dep : String → RSNode → DirSet → DepRes) (t : RSNode) (a : DirSet) :
    depGo dep [] t a = ⟨[], t, a, 0⟩ := rfl

theorem depGo_cons (dep : String → RSNode → DirSet → DepRes) (n : String) (ns : List String)
    (t : RSNode) (a : DirSet) :
    depGo dep (n :: ns) t a =
      ⟨(dep n t a).ok :: (depGo dep ns (dep n t a).tree (dep n t a).dirs).oks,
       (depGo dep ns (dep n t a).tree (dep n t a).dirs).tree,
       (depGo dep ns (dep n t a).tree (dep n t a).dirs).dirs,
       (dep n t a).calls + (depGo dep ns (dep n t a).tree (dep n t a).dirs).calls⟩ := rfl

theorem andl_false_of_mem {bs : List Bool} (h : false ∈ bs) : andl bs = false := by
  induction bs with
  | nil => simp at h
  | cons b bs ih =>
    rcases List.mem_cons.mp h with h1 | h2
    · simp [andl, ← h1]
    · rw [show andl (b :: bs) = (b && andl bs) from rfl, ih h2, Bool.and_false]

theorem depOkF_false_of_absent (fs : FS) (fuel : Nat) (m : String) (t : RSNode) (a : DirSet)
    (h : RSNode.contains t m = false) : (depOkF fs fuel m t a).ok = false := by
  cases fuel with
  | zero => rfl
  | succ fuel => rw [depOkF_succ_absent fs fuel m t a h]

theorem depGo_false_of_absent_mem (fs : FS) (fuel : Nat) :
    ∀ (names : List String) (t : RSNode) (a : DirSet) (m : String),
      m ∈ names → RSNode.getItem t m = none →
      false ∈ (depGo (depOkF fs fuel) names t a).oks := by
  intro names
  induction names with
  | nil => intro t a m hm _; simp at hm
  | cons n ns ih =>
    intro t a m hm habs
    rw [depGo_cons]
    rcases List.mem_cons.mp hm with h1 | h2
    · have hfalse : (depOkF fs fuel n t a).ok = false := by
        rw [← h1]
        exact depOkF_false_of_absent fs fuel m t a
          (RSNode.contains_eq_false_of_getItem_none habs)
      simp [hfalse]
    · have habs2 : RSNode.getItem (depOkF fs fuel n t a).tree m = none :=
        depOkF_getItem_none fs fuel n t a m habs
      simp only [List.mem_cons]
      right
      exact ih (depOkF fs fuel n t a).tree (depOkF fs fuel n t a).dirs m h2 habs2

theorem depOkF_false_of_missing_child (fs : FS) (fuel : Nat) (name : String) (t : RSNode)
    (acc : DirSet) (it : RSItem) (m : String)
    (hit : RSNode.getItem t name = some it) (hseen : it.seen = false)
    (hm : m ∈ freshNames fs it.file_path) (habs : RSNode.contains t m = false) :
    (depOkF fs fuel name t acc).ok = false := by
  cases fuel with
  | zero => rfl
  | succ fuel =>
    rw [depOkF_succ_fresh fs fuel name t acc it.file_path
      (RSNode.contains_of_getItem_some hit) (by rw [RSNode.has_been_seen_eq hit, hseen])
      (RSNode.get_item_path_mark hit)]
    rw [depFreshBody_ok]
    apply andl_false_of_mem
    have hgm : RSNode.getItem t m = none := by
      cases hgm : RSNode.getItem t m with
      | none => rfl
      | some x =>
        rw [RSNode.contains_of_getItem_some hgm] at habs
        exact absurd habs (by simp)
    have hmn : m ≠ name := fun hh => by rw [hh, hit] at hgm; cases hgm
    have habs1 : RSNode.getItem (RSNode.mark_as_seen t name) m = none := by
      rw [RSNode.getItem_mark_ne t name m hmn]; exact hgm
    exact depGo_false_of_absent_mem fs fuel (freshNames fs it.file_path)
      (RSNode.mark_as_seen t name) (freshDirs fs (RSNode.mark_as_seen t name) it.file_path)
      m hm habs1

theorem depOkF_fresh_entry (fs : FS) (fuel : Nat) (name : String) (t : RSNode) (acc : DirSet)
    (it : RSItem) (hit : RSNode.getItem t name = some it) (hseen : it.seen = false) :
    ∃ itF, RSNode.getItem (depOkF fs (fuel + 1) name t acc).tree name = some itF ∧
      itF.seen = true ∧ itF.ok = some (depOkF fs (fuel + 1) name t acc).ok := by
  rw [depOkF_succ_fresh fs fuel name t acc it.file_path
    (RSNode.contains_of_getItem_some hit) (by rw [RSNode.has_been_seen_eq hit, hseen])
    (RSNode.get_item_path_mark hit)]
  rw [depFreshBody_tree, depFreshBody_ok]
  have hfroz : ∃ itm, RSNode.getItem ((freshGo fs (depOkF fs fuel)
      (RSNode.mark_as_seen t name) it.file_path).tree) name = some itm ∧
      itm.seen = true ∧ itm.ok = ({ it with seen := true } : RSItem).ok :=
    depGo_seenOkFrozen (depOkF fs fuel)
      (fun n2 t2 a2 k2 it3 h3 s3 => depOkF_seenOkFrozen fs fuel n2 t2 a2 k2 it3 h3 s3)
      (freshNames fs it.file_path) (RSNode.mark_as_seen t name)
      (freshDirs fs (RSNode.mark_as_seen t name) it.file_path)
      name { it with seen := true } (RSNode.getItem_mark_self hit) rfl
  obtain ⟨itm, hgm, hsm, _⟩ := hfroz
  exact ⟨{ itm with ok := some (andl (freshGo fs (depOkF fs fuel)
      (RSNode.mark_as_seen t name) it.file_path).oks) },
    RSNode.getItem_setOk_self _ hgm, hsm, rfl⟩

theorem dependency_ok_second (fs : FS) (name : String) (t : RSNode) (acc acc2 : DirSet) :
    dependency_ok fs name (dependency_ok fs name t acc).tree acc2 =
      ⟨(dependency_ok fs name t acc).ok, (dependency_ok fs name t acc).tree, acc2, 0⟩ := by
  cases hcb : RSNode.contains t name with
  | false =>
    have h1 : dependency_ok fs name t acc = ⟨false, t, acc, 0⟩ :=
      depOkF_succ_absent fs (RSNode.size t) name t acc hcb
    rw [h1]
    exact depOkF_succ_absent fs (RSNode.size t) name t acc2 hcb
  | true =>
    obtain ⟨it, hit⟩ := RSNode.getItem_some_of_contains hcb
    cases hsb : it.seen with
    | true =>
      have hseen : RSNode.has_been_seen t name = true := by
        rw [RSNode.has_been_seen_eq hit, hsb]
      cases hok : it.ok with
      | some b =>
        have hio : RSNode.is_ok_to_include t name = some b := by
          rw [RSNode.is_ok_to_include_eq hit, hok]
        have h1 : dependency_ok fs name t acc = ⟨b, t, acc, 0⟩ :=
          depOkF_succ_memo fs (RSNode.size t) name t acc b hcb hseen hio
        rw [h1]
        exact depOkF_succ_memo fs (RSNode.size t) name t acc2 b hcb hseen hio
      | none =>
        have hio : RSNode.is_ok_to_include t name = none := by
          rw [RSNode.is_ok_to_include_eq hit, hok]
        have h1 : dependency_ok fs name t acc = ⟨true, t, acc, 0⟩ :=
          depOkF_succ_cycle fs (RSNode.size t) name t acc hcb hseen hio
        rw [h1]
        exact depOkF_succ_cycle fs (RSNode.size t) name t acc2 hcb hseen hio
    | false =>
      have hfe := depOkF_fresh_entry fs (RSNode.size t) name t acc it hit hsb
      have hfe2 : ∃ itF, RSNode.getItem (dependency_ok fs name t acc).tree name = some itF ∧
          itF.seen = true ∧ itF.ok = some (dependency_ok fs name t acc).ok := hfe
      obtain ⟨itF, hgF, hsF, hoF⟩ := hfe2
      exact depOkF_succ_memo fs (RSNode.size (dependency_ok fs name t acc).tree) name
        (dependency_ok fs name t acc).tree acc2 (dependency_ok fs name t acc).ok
        (RSNode.contains_of_getItem_some hgF)
        (by rw [RSNode.has_been_seen_eq hgF, hsF])
        (by rw [RSNode.is_ok_to_include_eq hgF, hoF])

theorem dependency_ok_true_of_no_includes (fs : FS) (name : String) (t : RSNode) (acc : DirSet)
    (it : RSItem) (hit : RSNode.getItem t name = some it)
    (hincl : get_includes (fs it.file_path) = []) (hok : it.ok ≠ some false) :
    (dependency_ok fs name t acc).ok = true := by
  cases hsb : it.seen with
  | true =>
    have hseen : RSNode.has_been_seen t name = true := by
      rw [RSNode.has_been_seen_eq hit, hsb]
    cases hokv : it.ok with
    | some b =>
      cases b with
      | false => exact absurd hokv hok
      | true =>
        have h1 : dependency_ok fs name t acc = ⟨true, t, acc, 0⟩ :=
          depOkF_succ_memo fs (RSNode.size t) name t acc true
            (RSNode.contains_of_getItem_some hit) hseen
            (by rw [RSNode.is_ok_to_include_eq hit, hokv])
        rw [h1]
    | none =>
      have h1 : dependency_ok fs name t acc = ⟨true, t, acc, 0⟩ :=
        depOkF_succ_cycle fs (RSNode.size t) name t acc
          (RSNode.contains_of_getItem_some hit) hseen
          (by rw [RSNode.is_ok_to_include_eq hit, hokv])
      rw [h1]
  | false =>
    have h1 : dependency_ok fs name t acc =
        depFreshBody fs (depOkF fs (RSNode.size t)) name (RSNode.mark_as_seen t name) acc
          it.file_path :=
      depOkF_succ_fresh fs (RSNode.size t) name t acc it.file_path
        (RSNode.contains_of_getItem_some hit) (by rw [RSNode.has_been_seen_eq hit, hsb])
        (RSNode.get_item_path_mark hit)
    rw [h1, depFreshBody_ok]
    have hn : freshNames fs it.file_path = [] := by
      rw [freshNames, hincl]; rfl
    rw [show (freshGo fs (depOkF fs (RSNode.size t)) (RSNode.mark_as_seen t name) it.file_path) =
      depGo (depOkF fs (RSNode.size t)) (freshNames fs it.file_path)
        (RSNode.mark_as_seen t name)
        (freshDirs fs (RSNode.mark_as_seen t name) it.file_path) from rfl, hn, depGo_nil]
    rfl

theorem dependency_ok_dirs_of_false (fs : FS) (name : String) (t : RSNode) (acc : DirSet)
    (h : (dependency_ok fs name t acc).ok = false) :
    (dependency_ok fs name t acc).dirs = acc := by
  cases hcb : RSNode.contains t name with
  | false =>
    rw [show dependency_ok fs name t acc = ⟨false, t, acc, 0⟩ from
      depOkF_succ_absent fs (RSNode.size t) name t acc hcb]
  | true =>
    obtain ⟨it, hit⟩ := RSNode.getItem_some_of_contains hcb
    cases hsb : it.seen with
    | true =>
      have hseen : RSNode.has_been_seen t name = true := by
        rw [RSNode.has_been_seen_eq hit, hsb]
      cases hokv : it.ok with
      | some b =>
        rw [show dependency_ok fs name t acc = ⟨b, t, acc, 0⟩ from
          depOkF_succ_memo fs (RSNode.size t) name t acc b hcb hseen
            (by rw [RSNode.is_ok_to_include_eq hit, hokv])]
      | none =>
        rw [show dependency_ok fs name t acc = ⟨true, t, acc, 0⟩ from
          depOkF_succ_cycle fs (RSNode.size t) name t acc hcb hseen
            (by rw [RSNode.is_ok_to_include_eq hit, hokv])] at h
        exact absurd h (by simp)
    | false =>
      have h1 : dependency_ok fs name t acc =
          depFreshBody fs (depOkF fs (RSNode.size t)) name (RSNode.mark_as_seen t name) acc
            it.file_path :=
        depOkF_succ_fresh fs (RSNode.size t) name t acc it.file_path hcb
          (by rw [RSNode.has_been_seen_eq hit, hsb]) (RSNode.get_item_path_mark hit)
      have h2 : andl (freshGo fs (depOkF fs (RSNode.size t)) (RSNode.mark_as_seen t name)
          it.file_path).oks = false := by
        rw [h1, depFreshBody_ok] at h
        exact h
      rw [h1, depFreshBody_dirs, h2]
      simp

theorem depFreshBody_eq (fs : FS) (dep : String → RSNode → DirSet → DepRes) (name : String)
    (t1 : RSNode) (acc : DirSet) (fp : List String) :
    depFreshBody fs dep name t1 acc fp =
      ⟨andl (freshGo fs dep t1 fp).oks,
       RSNode.set_ok_to_include (freshGo fs dep t1 fp).tree name (andl (freshGo fs dep t1 fp).oks),
       if andl (freshGo fs dep t1 fp).oks then acc ∪ (freshGo fs dep t1 fp).dirs else acc,
       (freshGo fs dep t1 fp).calls + 1⟩ := rfl

theorem freshGo_eq (fs : FS) (dep : String → RSNode → DirSet → DepRes)
    (t1 : RSNode) (fp : List String) :
    freshGo fs dep t1 fp = depGo dep (freshNames fs fp) t1 (freshDirs fs t1 fp) := rfl

theorem depOkF_true_of_no_includes_fresh (fs : FS) (fuel : Nat) (name : String) (t : RSNode)
    (acc : DirSet) (it : RSItem) (hit : RSNode.getItem t name = some it)
    (hseen : it.seen = false) (hincl : get_includes (fs it.file_path) = []) :
    depOkF fs (fuel + 1) name t acc =
      ⟨true, RSNode.set_ok_to_include (RSNode.mark_as_seen t name) name true, acc ∪ ∅, 1⟩ := by
  rw [depOkF_succ_fresh fs fuel name t acc it.file_path
    (RSNode.contains_of_getItem_some hit) (by rw [RSNode.has_been_seen_eq hit, hseen])
    (RSNode.get_item_path_mark hit), depFreshBody_eq]
  have hg : freshGo fs (depOkF fs fuel) (RSNode.mark_as_seen t name) it.file_path =
      ⟨[], RSNode.mark_as_seen t name, ∅, 0⟩ := by
    rw [freshGo_eq]
    have hn : freshNames fs it.file_path = [] := by rw [freshNames, hincl]; rfl
    have hd : freshDirs fs (RSNode.mark_as_seen t name) it.file_path = ∅ := by
      rw [freshDirs, hincl, hn]; rfl
    rw [hn, hd, depGo_nil]
  rw [hg]
  simp [andl]

theorem dependency_ok_cycle_branch (fs : FS) (n : String) (t : RSNode) (acc : DirSet)
    (it : RSItem) (h : RSNode.getItem t n = some it) (hs : it.seen = true)
    (ho : it.ok = none) : dependency_ok fs n t acc = ⟨true, t, acc, 0⟩ :=
  depOkF_succ_cycle fs (RSNode.size t) n t acc (RSNode.contains_of_getItem_some h)
    (by rw [RSNode.has_been_seen_eq h, hs]) (by rw [RSNode.is_ok_to_include_eq h, ho])

theorem dependency_ok_single_include (fs : FS) (t : RSNode) (acc : DirSet)
    (nx ny : String) (itx ity : RSItem) (incY : String)
    (hx : RSNode.getItem t nx = some itx) (hxs : itx.seen = false)
    (hy : RSNode.getItem t ny = some ity) (hys : ity.seen = false)
    (hne : nx ≠ ny)
    (hinc : get_includes (fs itx.file_path) = [incY])
    (hlast : lastComp incY = ny)
    (hyinc : get_includes (fs ity.file_path) = []) :
    (dependency_ok fs nx t acc).ok = true ∧
    (dependency_ok fs nx t acc).dirs = acc ∪
      (if joinPath itx.file_path.dropLast incY ≠ ity.file_path
       then {ity.file_path.dropLast} else ∅) := by
  obtain ⟨k, hk⟩ : ∃ k, RSNode.size t = k + 1 :=
    ⟨RSNode.size t - 1, by have := RSNode.size_pos_of_getItem t nx itx hx; omega⟩
  have hy1 : RSNode.getItem (RSNode.mark_as_seen t nx) ny = some ity := by
    rw [RSNode.getItem_mark_ne t nx ny (fun hh => hne hh.symm)]; exact hy
  have h1 : dependency_ok fs nx t acc =
      depFreshBody fs (depOkF fs (RSNode.size t)) nx (RSNode.mark_as_seen t nx) acc
        itx.file_path :=
    depOkF_succ_fresh fs (RSNode.size t) nx t acc itx.file_path
      (RSNode.contains_of_getItem_some hx) (by rw [RSNode.has_been_seen_eq hx, hxs])
      (RSNode.get_item_path_mark hx)
  rw [hk] at h1
  have hnames : freshNames fs itx.file_path = [ny] := by
    rw [freshNames, hinc]; simp [hlast]
  have hdirs : freshDirs fs (RSNode.mark_as_seen t nx) itx.file_path =
      (if joinPath itx.file_path.dropLast incY ≠ ity.file_path
       then {ity.file_path.dropLast} else ∅) := by
    rw [freshDirs, hinc, hnames, localDirsOf]
    simp only [List.zip_cons_cons, List.zip_nil_right, List.foldl_cons, List.foldl_nil]
    rw [RSNode.contains_of_getItem_some hy1]
    simp [RSNode.get_item_path_eq hy1]
  have hgo : freshGo fs (depOkF fs (k + 1)) (RSNode.mark_as_seen t nx) itx.file_path =
      ⟨[true],
       RSNode.set_ok_to_include (RSNode.mark_as_seen (RSNode.mark_as_seen t nx) ny) ny true,
       freshDirs fs (RSNode.mark_as_seen t nx) itx.file_path ∪ ∅, 1⟩ := by
    rw [freshGo_eq, hnames, depGo_cons, depGo_nil,
      depOkF_true_of_no_includes_fresh fs k ny (RSNode.mark_as_seen t nx)
        (freshDirs fs (RSNode.mark_as_seen t nx) itx.file_path) ity hy1 hys hyinc]
    rfl
  constructor
  · rw [h1, depFreshBody_ok, hgo]
    rfl
  · rw [h1, depFreshBody_dirs, hgo, ← hdirs]
    simp [andl]

theorem dependency_ok_mutual_cycle (fs : FS) (t : RSNode) (acc acc2 : DirSet)
    (na nb : String) (ita itb : RSItem) (ia ib : String)
    (ha : RSNode.getItem t na = some ita) (has : ita.seen = false) (hao : ita.ok = none)
    (hb : RSNode.getItem t nb = some itb) (hbs : itb.seen = false)
    (hne : na ≠ nb)
    (hainc : get_includes (fs ita.file_path) = [ia]) (hal : lastComp ia = nb)
    (hbinc : get_includes (fs itb.file_path) = [ib]) (hbl : lastComp ib = na) :
    (dependency_ok fs na t acc).ok = true ∧
    (dependency_ok fs nb (dependency_ok fs na t acc).tree acc2).ok = true := by
  obtain ⟨k, hk⟩ : ∃ k, RSNode.size t = k + 2 := by
    have h2 := RSNode.size_two_of_getItem t na nb ita itb ha hb hne
    exact ⟨RSNode.size t - 2, by omega⟩
  have hb1 : RSNode.getItem (RSNode.mark_as_seen t na) nb = some itb := by
    rw [RSNode.getItem_mark_ne t na nb (fun hh => hne hh.symm)]; exact hb
  have ha1 : RSNode.getItem (RSNode.mark_as_seen t na) na = some { ita with seen := true } :=
    RSNode.getItem_mark_self ha
  have ha2 : RSNode.getItem (RSNode.mark_as_seen (RSNode.mark_as_seen t na) nb) na =
      some { ita with seen := true } := by
    rw [RSNode.getItem_mark_ne (RSNode.mark_as_seen t na) nb na hne]; exact ha1
  have hb2 : RSNode.getItem (RSNode.mark_as_seen (RSNode.mark_as_seen t na) nb) nb =
      some { itb with seen := true } := RSNode.getItem_mark_self hb1
  have hra : ∀ D, depOkF fs (k + 1) na
      (RSNode.mark_as_seen (RSNode.mark_as_seen t na) nb) D =
      ⟨true, RSNode.mark_as_seen (RSNode.mark_as_seen t na) nb, D, 0⟩ := fun D =>
    depOkF_succ_cycle fs k na _ D (RSNode.contains_of_getItem_some ha2)
      (by rw [RSNode.has_been_seen_eq ha2]) (by rw [RSNode.is_ok_to_include_eq ha2]; exact hao)
  have hbnames : freshNames fs itb.file_path = [na] := by rw [freshNames, hbinc]; simp [hbl]
  have hanames : freshNames fs ita.file_path = [nb] := by rw [freshNames, hainc]; simp [hal]
  have hrb : ∀ D1, depOkF fs (k + 2) nb (RSNode.mark_as_seen t na) D1 =
      ⟨true,
       RSNode.set_ok_to_include (RSNode.mark_as_seen (RSNode.mark_as_seen t na) nb) nb true,
       D1 ∪ freshDirs fs (RSNode.mark_as_seen (RSNode.mark_as_seen t na) nb) itb.file_path,
       1⟩ := by
    intro D1
    rw [show (k + 2) = (k + 1) + 1 from rfl]
    rw [depOkF_succ_fresh fs (k + 1) nb (RSNode.mark_as_seen t na) D1 itb.file_path
      (RSNode.contains_of_getItem_some hb1) (by rw [RSNode.has_been_seen_eq hb1, hbs])
      (RSNode.get_item_path_mark hb1), depFreshBody_eq]
    have hgb : freshGo fs (depOkF fs (k + 1))
        (RSNode.mark_as_seen (RSNode.mark_as_seen t na) nb) itb.file_path =
        ⟨[true], RSNode.mark_as_seen (RSNode.mark_as_seen t na) nb,
         freshDirs fs (RSNode.mark_as_seen (RSNode.mark_as_seen t na) nb) itb.file_path,
         0⟩ := by
      rw [freshGo_eq, hbnames, depGo_cons, depGo_nil, hra _]
      rfl
    rw [hgb]
    simp [andl]
  have h1 : dependency_ok fs na t acc =
      depFreshBody fs (depOkF fs (k + 2)) na (RSNode.mark_as_seen t na) acc ita.file_path := by
    rw [show dependency_ok fs na t acc = depOkF fs (RSNode.size t + 1) na t acc from rfl, hk]
    exact depOkF_succ_fresh fs (k + 2) na t acc ita.file_path
      (RSNode.contains_of_getItem_some ha) (by rw [RSNode.has_been_seen_eq ha, has])
      (RSNode.get_item_path_mark ha)
  have hga : freshGo fs (depOkF fs (k + 2)) (RSNode.mark_as_seen t na) ita.file_path =
      ⟨[true],
       RSNode.set_ok_to_include (RSNode.mark_as_seen (RSNode.mark_as_seen t na) nb) nb true,
       freshDirs fs (RSNode.mark_as_seen t na) ita.file_path ∪
         freshDirs fs (RSNode.mark_as_seen (RSNode.mark_as_seen t na) nb) itb.file_path,
       1⟩ := by
    rw [freshGo_eq, hanames, depGo_cons, depGo_nil, hrb _]
    rfl
  have hr1 : dependency_ok fs na t acc =
      ⟨true,
       RSNode.set_ok_to_include
         (RSNode.set_ok_to_include (RSNode.mark_as_seen (RSNode.mark_as_seen t na) nb) nb true)
         na true,
       acc ∪ (freshDirs fs (RSNode.mark_as_seen t na) ita.file_path ∪
         freshDirs fs (RSNode.mark_as_seen (RSNode.mark_as_seen t na) nb) itb.file_path),
       2⟩ := by
    rw [h1, depFreshBody_eq, hga]
    simp [andl]
  constructor
  · rw [hr1]
  · rw [hr1]
    have hb4 : RSNode.getItem (RSNode.set_ok_to_include
        (RSNode.set_ok_to_include (RSNode.mark_as_seen (RSNode.mark_as_seen t na) nb) nb true)
        na true) nb = some { { itb with seen := true } with ok := some true } := by
      rw [RSNode.getItem_setOk_ne _ na true nb (fun hh => hne hh.symm)]
      exact RSNode.getItem_setOk_self true hb2
    have hmemo : dependency_ok fs nb (RSNode.set_ok_to_include
        (RSNode.set_ok_to_include (RSNode.mark_as_seen (RSNode.mark_as_seen t na) nb) nb true)
        na true) acc2 =
        ⟨true, RSNode.set_ok_to_include
          (RSNode.set_ok_to_include (RSNode.mark_as_seen (RSNode.mark_as_seen t na) nb) nb true)
          na true, acc2, 0⟩ :=
      depOkF_succ_memo fs (RSNode.size (RSNode.set_ok_to_include
        (RSNode.set_ok_to_include (RSNode.mark_as_seen (RSNode.mark_as_seen t na) nb) nb true)
        na true)) nb _ acc2 true
        (RSNode.contains_of_getItem_some hb4) (by rw [RSNode.has_been_seen_eq hb4])
        (by rw [RSNode.is_ok_to_include_eq hb4])
    rw [hmemo]

theorem splitOnCharAux_length_pos (c : Char) :
    ∀ (xs acc : List Char), 1 ≤ (splitOnCharAux c xs acc).length := by
  intro xs
  induction xs with
  | nil => intro acc; simp [splitOnCharAux]
  | cons d ds ih =>
    intro acc
    by_cases hd : d = c
    · simp [splitOnCharAux, hd]
    · simp only [splitOnCharAux, hd, if_false]
      exact ih (d :: acc)

theorem splitOnCharAux_length_two (c : Char) :
    ∀ (xs acc : List Char), c ∈ xs → 2 ≤ (splitOnCharAux c xs acc).length := by
  intro xs
  induction xs with
  | nil => intro acc h; simp at h
  | cons d ds ih =>
    intro acc hmem
    by_cases hd : d = c
    · simp only [splitOnCharAux, hd, if_true, List.length_cons]
      have := splitOnCharAux_length_pos c ds []
      omega
    · have hc : c ∈ ds := by
        rcases List.mem_cons.mp hmem with h1 | h2
        · exact absurd h1.symm hd
        · exact h2
      simp only [splitOnCharAux, hd, if_false]
      exact ih (d :: acc) hc

theorem pySplit_get1 (l : String) (h : pyContainsChar l '"' = true) :
    (pySplit l '"').get? 1 = some ((pySplit l '"').getD 1 "") := by
  have hmem : '"' ∈ l.data := by
    rw [pyContainsChar] at h
    exact List.mem_of_elem_eq_true h
  have hlen : 2 ≤ (pySplit l '"').length := splitOnCharAux_length_two '"' l.data [] hmem
  cases hg : (pySplit l '"').get? 1 with
  | none =>
    have := List.get?_eq_none.mp hg
    omega
  | some x =>
    rw [List.getD_eq_getElem?_getD, ← List.get?_eq_getElem?, hg]
    rfl

theorem get_includesE_ok : ∀ (lines : List String),
    get_includesE lines = Except.ok (get_includes lines) := by
  intro lines
  induction lines with
  | nil => rfl
  | cons line rest ih =>
    simp only [get_includesE, get_includes]
    by_cases h1 : (pyStartsWith (pyStrip line) "#include" &&
        (pyContainsChar (pyStrip line) '<' || pyContainsChar (pyStrip line) '"')) = true
    · simp only [h1, if_true]
      by_cases h2 : pyContainsChar (pyStrip line) '"' = true
      · simp only [h2, if_true]
        rw [pySplit_get1 (pyStrip line) h2]
        by_cases h3 : pyContainsChar (pyStrip ((pySplit (pyStrip line) '"').getD 1 "")) ' ' = true
        · simp only [h3, if_true]
          exact ih
        · simp only [h3, if_false, ih]
          rfl
      · simp only [h2, if_false]
        exact ih
    · simp only [h1, if_false]
      exact ih

theorem get_includes_filterMap : ∀ (lines : List String),
    get_includes lines = lines.filterMap includeTargetOfLine := by
  intro lines
  induction lines with
  | nil => rfl
  | cons line rest ih =>
    simp only [get_includes, List.filterMap_cons, includeTargetOfLine]
    by_cases h1 : (pyStartsWith (pyStrip line) "#include" &&
        (pyContainsChar (pyStrip line) '<' || pyContainsChar (pyStrip line) '"')) = true
    · simp only [h1, if_true]
      by_cases h2 : pyContainsChar (pyStrip line) '"' = true
      · simp only [h2, if_true]
        by_cases h3 : pyContainsChar (pyStrip ((pySplit (pyStrip line) '"').getD 1 "")) ' ' = true
        · simp only [h3, if_true]
          exact ih
        · simp only [List.getD_eq_getElem?_getD] at h3
          simp [h3, ih]
      · simp only [h2, if_false]
        exact ih
    · simp only [h1, if_false]
      exact ih


theorem heapGet_set_self : ∀ (h : Heap) (i : Nat) (v : RSNode), i < h.length →
    heapGet (heapSet h i v) i = v := by
  intro h
  induction h with
  | nil => intro i v hi; simp at hi
  | cons x xs ih =>
    intro i v hi
    cases i with
    | zero => rfl
    | succ i => exact ih i v (by simpa using hi)

theorem length_orStepH : ∀ (u : RSNode) (h : Heap) (i : Nat),
    (orStepH h i u).length = h.length := by
  intro u
  induction u with
  | nil => intro h i; rfl
  | node it l r ihl ihr =>
    intro h i
    show (orStepH (orStepH (heapSet h i ((heapGet h i).insert it)) i l) i r).length = _
    rw [ihr, ihl]
    simp [heapSet]

theorem heapGet_orStepH : ∀ (u : RSNode) (h : Heap) (i : Nat), i < h.length →
    heapGet (orStepH h i u) i = RSNode.orOp (heapGet h i) u := by
  intro u
  induction u with
  | nil => intro h i _; rfl
  | node it l r ihl ihr =>
    intro h i hi
    have hi1 : i < (heapSet h i ((heapGet h i).insert it)).length := by
      simp [heapSet]; omega
    have hi2 : i < (orStepH (heapSet h i ((heapGet h i).insert it)) i l).length := by
      rw [length_orStepH]; exact hi1
    show heapGet (orStepH (orStepH (heapSet h i ((heapGet h i).insert it)) i l) i r) i = _
    rw [ihr _ _ hi2, ihl _ _ hi1, heapGet_set_self h i _ hi]
    rfl

theorem mergeH_foldl_snd : ∀ (others : List Nat) (st : Heap × Nat),
    (others.foldl (fun st j => orH st.1 st.2 j) st).2 = st.2 := by
  intro others
  induction others with
  | nil => intro st; rfl
  | cons j js ih => intro st; exact ih (orH st.1 st.2 j)

theorem mergeH_snd (h : Heap) (others : List Nat) : (mergeH h others).2 = h.length :=
  mergeH_foldl_snd others (h ++ [RSNode.nil], h.length)


theorem contains_insert_self (t : RSNode) (x : RSItem) :
    RSNode.contains (t.insert x) x.file_name = true := by
  rw [RSNode.contains_eq_isSome, RSNode.getItem_insert_self]
  rfl

theorem contains_insert_mono (t : RSNode) (x : RSItem) (k : String)
    (h : RSNode.contains t k = true) : RSNode.contains (t.insert x) k = true := by
  by_cases hk : k = x.file_name
  · rw [hk]; exact contains_insert_self t x
  · rw [RSNode.contains_eq_isSome, RSNode.getItem_insert_ne t x k hk,
      ← RSNode.contains_eq_isSome]
    exact h

theorem insert_dir_contains_mono (ext : List String) (ascii_only : Bool)
    (asciiOf : List String → Bool) :
    ∀ (files : List ScanFile) (t : RSNode) (k : String),
      RSNode.contains t k = true →
      RSNode.contains (insert_dir t files ext ascii_only asciiOf) k = true := by
  intro files
  induction files with
  | nil => intro t k h; exact h
  | cons g gs ih =>
    intro t k h
    show RSNode.contains (insert_dir (if shouldInsert ext ascii_only asciiOf g then
      t.insert ⟨g.path.getLastD "", g.path, false, none⟩ else t) gs ext ascii_only asciiOf) k = true
    apply ih
    by_cases hg : shouldInsert ext ascii_only asciiOf g = true
    · simp only [hg, if_true]
      exact contains_insert_mono t _ k h
    · simp only [hg, if_false]
      exact h

theorem insert_dir_contains (ext : List String) (ascii_only : Bool)
    (asciiOf : List String → Bool) :
    ∀ (files : List ScanFile) (t : RSNode) (f : ScanFile),
      f ∈ files → shouldInsert ext ascii_only asciiOf f = true →
      RSNode.contains (insert_dir t files ext ascii_only asciiOf) (f.path.getLastD "") = true := by
  intro files
  induction files with
  | nil => intro t f hmem; simp at hmem
  | cons g gs ih =>
    intro t f hmem hins
    show RSNode.contains (insert_dir (if shouldInsert ext ascii_only asciiOf g then
      t.insert ⟨g.path.getLastD "", g.path, false, none⟩ else t) gs ext ascii_only asciiOf) _ = true
    rcases List.mem_cons.mp hmem with h1 | h2
    · apply insert_dir_contains_mono
      rw [h1] at hins
      rw [h1]
      simp only [hins, if_true]
      exact contains_insert_self t _
    · exact ih _ f h2 hins


theorem chainTo_mark (fs : FS) (m : String) (t : RSNode) (n : String) :
    ∀ (names : List String), ChainTo fs t m names → n ∉ names →
      ChainTo fs (RSNode.mark_as_seen t n) m names := by
  intro names
  induction names with
  | nil =>
    intro hch _
    show RSNode.contains (RSNode.mark_as_seen t n) m = false
    rw [RSNode.mark_as_seen,
      RSNode.contains_updateItem (fun it => { it with seen := true }) (fun _ => rfl)]
    exact hch
  | cons x xs ih =>
    intro hch hn
    obtain ⟨⟨it, hit, hs, hnm⟩, hrest⟩ := hch
    have hxn : x ≠ n := fun hh => hn (by rw [← hh]; exact List.mem_cons_self x xs)
    refine ⟨⟨it, ?_, hs, hnm⟩, ih hrest (fun hh => hn (List.mem_cons_of_mem x hh))⟩
    rw [RSNode.getItem_mark_ne t n x hxn]
    exact hit

theorem depOkF_false_of_chain (fs : FS) (m : String) :
    ∀ (rest : List String) (n : String) (fuel : Nat) (t : RSNode) (acc : DirSet),
      (n :: rest).Nodup → ChainTo fs t m (n :: rest) →
      (depOkF fs fuel n t acc).ok = false := by
  intro rest
  induction rest with
  | nil =>
    intro n fuel t acc _ hch
    obtain ⟨⟨it, hit, hseen, hnames⟩, habs⟩ := hch
    exact depOkF_false_of_missing_child fs fuel n t acc it m hit hseen
      (by rw [hnames]; exact List.mem_singleton.mpr rfl) habs
  | cons n2 rest2 ih =>
    intro n fuel t acc hnd hch
    obtain ⟨⟨it, hit, hseen, hnames⟩, hch2⟩ := hch
    cases fuel with
    | zero => rfl
    | succ fuel =>
      rw [depOkF_succ_fresh fs fuel n t acc it.file_path
        (RSNode.contains_of_getItem_some hit) (by rw [RSNode.has_been_seen_eq hit, hseen])
        (RSNode.get_item_path_mark hit), depFreshBody_ok]
      apply andl_false_of_mem
      rw [freshGo_eq, hnames, depGo_cons, depGo_nil]
      have hnmem : n ∉ n2 :: rest2 := (List.nodup_cons.mp hnd).1
      have hx : (depOkF fs fuel n2 (RSNode.mark_as_seen t n)
          (freshDirs fs (RSNode.mark_as_seen t n) it.file_path)).ok = false :=
        ih n2 fuel (RSNode.mark_as_seen t n) _ (List.nodup_cons.mp hnd).2
          (chainTo_mark fs m t n (n2 :: rest2) hch2 hnmem)
      show false ∈ [(depOkF fs fuel n2 (RSNode.mark_as_seen t n)
        (freshDirs fs (RSNode.mark_as_seen t n) it.file_path)).ok]
      rw [hx]
      exact List.mem_singleton.mpr rfl


/-- Claim C1, counterexample: in the end-to-end scenario (registry
`root/a.h` including `"b.h"` and `root/sub/b.h` including nothing), with
`a.h` preceding `sub/b.h` in discovery order the driver does not append
`b.h` (it is skipped as already seen from `a.h`'s recursion), and the
collected search-directory set is not empty — contradicting the claim
that both files are appended and the set is empty. -/
theorem c1_counterexample :
    pathB ∉ (generate_rootsense fsAB [pathA, pathB] [treeAB]).1 ∧
    (generate_rootsense fsAB [pathA, pathB] [treeAB]).2 ≠ (∅ : DirSet) := by
  decide

/-- Claim C1, amended: in the end-to-end scenario the driver appends both
files only when `sub/b.h` precedes `a.h` in discovery order; when `a.h`
comes first, `b.h` is skipped as already seen and only `a.h` is appended.
In both orders the collected search-directory set is `{root/sub}` (the
registered directory of `b.h`, which bare relative inclusion from `root`
does not reach).  If `sub/b.h` is removed from disk and registry, neither
file is appended and the set is empty. -/
theorem c1_amended :
    generate_rootsense fsAB [pathA, pathB] [treeAB] = ([pathA], {["root", "sub"]}) ∧
    generate_rootsense fsAB [pathB, pathA] [treeAB] = ([pathB, pathA], {["root", "sub"]}) ∧
    generate_rootsense fsAB [pathA] [treeA] = ([], ∅) := by
  decide

/-- Claim C2: a second `dependency_ok` call on the same file against the
registry state left by the first call returns the same verdict, leaves
the registry unchanged, does not touch the caller's accumulator and
performs zero extractor invocations; and under the spec's registry
invariant (a recorded verdict implies visited), a verdict once recorded
is never changed by any later call on any file. -/
theorem c2_idempotent_and_immutable (fs : FS) (name : String) (t : RSNode)
    (acc acc2 : DirSet) :
    (dependency_ok fs name (dependency_ok fs name t acc).tree acc2 =
      ⟨(dependency_ok fs name t acc).ok, (dependency_ok fs name t acc).tree, acc2, 0⟩) ∧
    (OkSeenB t = true → ∀ (k : String) (b : Bool) (n : String) (acc3 : DirSet),
      RSNode.is_ok_to_include t k = some b →
      RSNode.is_ok_to_include (dependency_ok fs n t acc3).tree k = some b) :=
  ⟨dependency_ok_second fs name t acc acc2,
   fun hinv k b n acc3 h =>
     depOkF_ok_immutable fs (RSNode.size t + 1) n t acc3 k b (okSeenB_to_P t hinv) h⟩

theorem c2_witness :
    OkSeenB treeC2 = true ∧
    RSNode.is_ok_to_include (dependency_ok fsAB "b.h" treeC2 ∅).tree "a.h" = some true :=
  ⟨by decide,
   (c2_idempotent_and_immutable fsAB "b.h" treeC2 ∅ ∅).2 (by decide) "a.h" true "b.h" ∅
     (by decide)⟩

/-- Claim C6: a file present in the registry whose extracted include
list is empty gets verdict true (the verdict is the AND over child
verdicts, vacuously true), for every registry state in which no false
verdict was pre-recorded for it. -/
theorem c6_no_includes (fs : FS) (name : String) (t : RSNode) (acc : DirSet) (it : RSItem)
    (hit : RSNode.getItem t name = some it)
    (hincl : get_includes (fs it.file_path) = [])
    (hok : it.ok ≠ some false) :
    (dependency_ok fs name t acc).ok = true :=
  dependency_ok_true_of_no_includes fs name t acc it hit hincl hok

theorem c6_witness :
    RSNode.getItem treeXY "y.h" = some itemY ∧
    (dependency_ok fsXY "y.h" treeXY ∅).ok = true :=
  ⟨by decide, c6_no_includes fsXY "y.h" treeXY ∅ itemY (by decide) (by decide) (by decide)⟩

/-- Claim C7: for binary-search-tree registries, the key set of `t | u`
equals the key set of `u | t` (membership is commutative), and on a key
present in the right operand the right operand's entry wins in the
merged result. -/
theorem c7_merge_membership (t u : RSNode) (k : String)
    (ht : RSNode.isBST t = true) (hu : RSNode.isBST u = true) :
    (RSNode.contains (RSNode.orOp t u) k = RSNode.contains (RSNode.orOp u t) k) ∧
    (∀ it, RSNode.getItem u k = some it → RSNode.getItem (RSNode.orOp t u) k = some it) := by
  constructor
  · rw [RSNode.contains_eq_isSome, RSNode.contains_eq_isSome,
      RSNode.getItem_orOp u t k hu, RSNode.getItem_orOp t u k ht]
    cases RSNode.getItem u k <;> cases RSNode.getItem t k <;> rfl
  · intro it h
    rw [RSNode.getItem_orOp u t k hu, h]
    rfl

theorem c7_witness :
    RSNode.isBST treeW1 = true ∧ RSNode.isBST treeW2 = true ∧
    RSNode.getItem (RSNode.orOp treeW1 treeW2) "a.h" = some itemRight :=
  ⟨by decide, by decide,
   (c7_merge_membership treeW1 treeW2 "a.h" (by decide) (by decide)).2 itemRight (by decide)⟩

/-- Claim C8: include extraction returns, in source line order, exactly
the double-quoted target of each line that (after stripping) starts with
the include token and contains a quote or angle bracket, discarding
targets with internal whitespace and never returning angle-bracket
targets (the per-line rule is `includeTargetOfLine`); the one partial
indexing operation is guarded, so extraction never raises. -/
theorem c8_extraction (lines : List String) :
    get_includesE lines = Except.ok (get_includes lines) ∧
    get_includes lines = lines.filterMap includeTargetOfLine :=
  ⟨get_includesE_ok lines, get_includes_filterMap lines⟩

/-- Claim C10: evaluating `t | u` mutates the left operand's registry
object in place — the returned reference is the left operand itself, no
new cell is allocated, and afterwards every key of `u` is contained in
the object `t` refers to; only `RSNode.merge` allocates a fresh empty
registry (a new reference distinct from the operands). -/
theorem c10_or_mutates_left (h : Heap) (i j : Nat) (hi : i < h.length) :
    (orH h i j).2 = i ∧
    ((orH h i j).1).length = h.length ∧
    (∀ k, k ∈ RSNode.keys (heapGet h j) → k ∈ RSNode.keys (heapGet ((orH h i j).1) i)) ∧
    (∀ (others : List Nat), (mergeH h others).2 = h.length ∧ (mergeH h others).2 ≠ i) := by
  refine ⟨rfl, length_orStepH (heapGet h j) h i, ?_, ?_⟩
  · intro k hk
    show k ∈ RSNode.keys (heapGet (orStepH h i (heapGet h j)) i)
    rw [heapGet_orStepH (heapGet h j) h i hi]
    exact (RSNode.mem_keys_orOp (heapGet h j) (heapGet h i) k).mpr (Or.inr hk)
  · intro others
    refine ⟨mergeH_snd h others, ?_⟩
    rw [mergeH_snd h others]
    omega

theorem c10_witness :
    0 < heapW.length ∧ "a.h" ∈ RSNode.keys (heapGet ((orH heapW 0 1).1) 0) :=
  ⟨by decide, (c10_or_mutates_left heapW 0 1 (by decide)).2.2.1 "a.h" (by decide)⟩

/-- Claim C3: in any registry holding two fresh files A and B whose
extracted includes name each other and nothing else, the resolvability
check returns true for A and then true for B; and in general a file that
is already visited but has no recorded verdict (a cycle member on the
recursion stack) is answered true with no state change, so no verdict is
recorded for it. -/
theorem c3_mutual_cycle_true (fs : FS) (t : RSNode) (acc acc2 : DirSet)
    (na nb : String) (ita itb : RSItem) (ia ib : String)
    (ha : RSNode.getItem t na = some ita) (has : ita.seen = false) (hao : ita.ok = none)
    (hb : RSNode.getItem t nb = some itb) (hbs : itb.seen = false)
    (hne : na ≠ nb)
    (hainc : get_includes (fs ita.file_path) = [ia]) (hal : lastComp ia = nb)
    (hbinc : get_includes (fs itb.file_path) = [ib]) (hbl : lastComp ib = na) :
    (dependency_ok fs na t acc).ok = true ∧
    (dependency_ok fs nb (dependency_ok fs na t acc).tree acc2).ok = true ∧
    (∀ (t2 : RSNode) (n : String) (acc3 : DirSet) (it2 : RSItem),
      RSNode.getItem t2 n = some it2 → it2.seen = true → it2.ok = none →
      dependency_ok fs n t2 acc3 = ⟨true, t2, acc3, 0⟩) :=
  ⟨(dependency_ok_mutual_cycle fs t acc acc2 na nb ita itb ia ib
      ha has hao hb hbs hne hainc hal hbinc hbl).1,
   (dependency_ok_mutual_cycle fs t acc acc2 na nb ita itb ia ib
      ha has hao hb hbs hne hainc hal hbinc hbl).2,
   fun t2 n acc3 it2 h hs ho => dependency_ok_cycle_branch fs n t2 acc3 it2 h hs ho⟩

theorem c3_witness :
    RSNode.getItem treeAB "a.h" = some itemA ∧
    (dependency_ok fsCycle "a.h" treeAB ∅).ok = true ∧
    (dependency_ok fsCycle "b.h" (dependency_ok fsCycle "a.h" treeAB ∅).tree ∅).ok = true :=
  ⟨by decide,
   (c3_mutual_cycle_true fsCycle treeAB ∅ ∅ "a.h" "b.h" itemA itemB "b.h" "a.h"
     (by decide) (by decide) (by decide) (by decide) (by decide) (by decide)
     (by decide) (by decide) (by decide) (by decide)).1,
   (c3_mutual_cycle_true fsCycle treeAB ∅ ∅ "a.h" "b.h" itemA itemB "b.h" "a.h"
     (by decide) (by decide) (by decide) (by decide) (by decide) (by decide)
     (by decide) (by decide) (by decide) (by decide)).2.1⟩

/-- Claim C4: a file name absent from the registry gets verdict false
immediately with no state change (and no error); a fresh file one of
whose extracted include names is absent gets verdict false; and along
any linear chain of fresh files each including exactly the next, ending
at a missing file, every chain member gets verdict false (transitive
propagation of the missing target). -/
theorem c4_missing_target (fs : FS) :
    (∀ (name : String) (t : RSNode) (acc : DirSet), RSNode.contains t name = false →
      dependency_ok fs name t acc = ⟨false, t, acc, 0⟩) ∧
    (∀ (name : String) (t : RSNode) (acc : DirSet) (it : RSItem) (m : String),
      RSNode.getItem t name = some it → it.seen = false →
      m ∈ freshNames fs it.file_path → RSNode.contains t m = false →
      (dependency_ok fs name t acc).ok = false) ∧
    (∀ (m : String) (names : List String) (n : String) (t : RSNode) (acc : DirSet),
      (n :: names).Nodup → ChainTo fs t m (n :: names) →
      (dependency_ok fs n t acc).ok = false) :=
  ⟨fun name t acc h => depOkF_succ_absent fs (RSNode.size t) name t acc h,
   fun name t acc it m hit hs hm habs =>
     depOkF_false_of_missing_child fs (RSNode.size t + 1) name t acc it m hit hs hm habs,
   fun m names n t acc hnd hch =>
     depOkF_false_of_chain fs m names n (RSNode.size t + 1) t acc hnd hch⟩

theorem c4_witness :
    RSNode.contains treeCB "missing.h" = false ∧
    dependency_ok fsChain "missing.h" treeCB ∅ = ⟨false, treeCB, ∅, 0⟩ ∧
    (dependency_ok fsChain "c.h" treeCB ∅).ok = false :=
  ⟨by decide,
   (c4_missing_target fsChain).1 "missing.h" treeCB ∅ (by decide),
   (c4_missing_target fsChain).2.2 "missing.h" ["b.h"] "c.h" treeCB ∅ (by decide)
     ⟨⟨itemC, by decide, by decide, by decide⟩,
      ⟨⟨itemB, by decide, by decide, by decide⟩,
       (show RSNode.contains treeCB "missing.h" = false by decide)⟩⟩⟩

/-- Claim C5: when a fresh file `x` at `a/x.h` includes `"y.h"` by name
and `y.h` is registered at `b/y.h` with `b` not reachable by relative
inclusion (the parent of `x` joined with the include text differs from
`y`'s registered path), a successful check on `x` adds `b` to the
caller's directory accumulator; if `y.h` is absent from the registry the
accumulator is unchanged (`b` is not added); and in general a check
whose verdict is false leaves the caller's accumulator exactly as it
was (directories of unresolvable files are discarded). -/
theorem c5_directory_collection (fs : FS) :
    (∀ (t : RSNode) (acc : DirSet) (nx ny : String) (itx ity : RSItem) (incY : String),
      RSNode.getItem t nx = some itx → itx.seen = false →
      RSNode.getItem t ny = some ity → ity.seen = false → nx ≠ ny →
      get_includes (fs itx.file_path) = [incY] → lastComp incY = ny →
      get_includes (fs ity.file_path) = [] →
      joinPath itx.file_path.dropLast incY ≠ ity.file_path →
      ((dependency_ok fs nx t acc).ok = true ∧
       (dependency_ok fs nx t acc).dirs = acc ∪ {ity.file_path.dropLast})) ∧
    (∀ (t : RSNode) (acc : DirSet) (nx ny : String) (itx : RSItem) (incY : String),
      RSNode.getItem t nx = some itx → itx.seen = false →
      get_includes (fs itx.file_path) = [incY] → lastComp incY = ny →
      RSNode.contains t ny = false →
      (dependency_ok fs nx t acc).dirs = acc) ∧
    (∀ (name : String) (t : RSNode) (acc : DirSet),
      (dependency_ok fs name t acc).ok = false →
      (dependency_ok fs name t acc).dirs = acc) := by
  refine ⟨?_, ?_, fun name t acc h => dependency_ok_dirs_of_false fs name t acc h⟩
  · intro t acc nx ny itx ity incY hx hxs hy hys hne hinc hlast hyinc hjoin
    have h := dependency_ok_single_include fs t acc nx ny itx ity incY
      hx hxs hy hys hne hinc hlast hyinc
    refine ⟨h.1, ?_⟩
    rw [h.2, if_pos hjoin]
  · intro t acc nx ny itx incY hx hxs hinc hlast habs
    exact dependency_ok_dirs_of_false fs nx t acc
      (depOkF_false_of_missing_child fs (RSNode.size t + 1) nx t acc itx ny hx hxs
        (by rw [freshNames, hinc]; simp [hlast]) habs)

theorem c5_witness :
    RSNode.getItem treeXY "x.h" = some itemX ∧
    (dependency_ok fsXY "x.h" treeXY ∅).ok = true ∧
    (dependency_ok fsXY "x.h" treeXY ∅).dirs = ∅ ∪ {itemY.file_path.dropLast} :=
  ⟨by decide,
   ((c5_directory_collection fsXY).1 treeXY ∅ "x.h" "y.h" itemX itemY "y.h"
     (by decide) (by decide) (by decide) (by decide) (by decide) (by decide)
     (by decide) (by decide) (by decide)).1,
   ((c5_directory_collection fsXY).1 treeXY ∅ "x.h" "y.h" itemX itemY "y.h"
     (by decide) (by decide) (by decide) (by decide) (by decide) (by decide)
     (by decide) (by decide) (by decide)).2⟩

/-- Claim C9: under the configuration that performs the content check
(`ascii_only` true, the source's default), a scanned file with an
extension is inserted exactly when its extension is in the allowed list
or the list contains the wildcard; an extensionless file is inserted
exactly when extensionless files pass the extension test and the file is
detected as plain text; and a file passing the filter really is inserted
into the registry (its name is contained afterwards). -/
theorem c9_scan_filter (ext : List String) (asciiOf : List String → Bool) (f : ScanFile) :
    (f.suffix ≠ "" → (shouldInsert ext true asciiOf f = true ↔
      (ext.contains "*" || ext.contains f.suffix) = true)) ∧
    (f.suffix = "" → (shouldInsert ext true asciiOf f = true ↔
      ((ext.contains "*" || ext.contains "") = true ∧ asciiOf f.path = true))) ∧
    (∀ (files : List ScanFile) (t : RSNode), f ∈ files →
      shouldInsert ext true asciiOf f = true →
      RSNode.contains (insert_dir t files ext true asciiOf) (f.path.getLastD "") = true) := by
  refine ⟨?_, ?_, fun files t hmem hins => insert_dir_contains ext true asciiOf files t f hmem hins⟩
  · intro hne
    by_cases hc : (ext.contains "*" || ext.contains f.suffix) = true
    · simp [shouldInsert, hc, hne]
    · simp [shouldInsert, hc, hne]
  · intro heq
    by_cases hc : (ext.contains "*" || ext.contains "") = true
    · by_cases ha : asciiOf f.path = true
      · simp [shouldInsert, heq, hc, ha]
      · simp [shouldInsert, heq, hc, ha]
    · simp [shouldInsert, heq, hc]

theorem c9_witness :
    fileH.suffix ≠ "" ∧
    (shouldInsert [".h", ".hh", ""] true ascAll fileH = true ↔
      (List.contains [".h", ".hh", ""] "*" || List.contains [".h", ".hh", ""] fileH.suffix)
        = true) :=
  ⟨by decide, (c9_scan_filter [".h", ".hh", ""] ascAll fileH).1 (by decide)⟩
